import Mathlib

/-!
Verification development for the `make-pi` repository (bignum variant,
`src/v4/make_pi_4.c`).

The decimal bignum type and its operations are shallowly embedded below.
C arrays are modelled as lists: a `calloc(n, ...)` array is
`List.replicate n 0`, an in-bounds write `a[i] = v` is `List.set`, and a
read `a[i]` is `List.getD _ i 0`.  Where the C performs an out-of-bounds
array access (undefined behaviour) the model is the benign completion:
an out-of-range `List.set` is dropped and an out-of-range read gives 0;
each place where this can be reached is noted in a comment.  C `long int`
values that can be negative (`power`, integer arguments) are modelled as
`Int`; array indices and digit counts are `Nat`.  The long-division
scratchpad is a `List Int` because its signed `char` cells go transiently
negative during borrow propagation.  Operations whose C versions can fail
only on `calloc` failure are modelled as total (allocation always
succeeds); `bignum_divide` and its wrappers keep their genuine failure
path (zero denominator) via `Option`.
-/

namespace MakePi

/-- The `bignum` struct of `make_pi_4.c` (lines 50-55): decimal digits
MSD-first in `digits` (an array of `precision` cells), decimal exponent
of the MSD in `power`, number of stored significant digits in `sig_digs`,
and the fixed digit budget `precision`. -/
structure Bignum where
  power : Int
  sig_digs : Nat
  digits : List Nat
  precision : Nat

/-- `bignum_init` (lines 363-369): a fresh zero bignum with the given
precision; `calloc` zero-fills the `precision`-cell digit array. -/
def bignum_init (precision : Nat) : Bignum :=
  { power := 0, sig_digs := 0, digits := List.replicate precision 0,
    precision := precision }

/-- The zeroing loop of `bignum_reset` (line 376): clear the first `n`
cells, leaving the rest untouched. -/
def zeroPrefix : Nat → List Nat → List Nat
  | 0, l => l
  | _ + 1, [] => []
  | n + 1, _ :: xs => 0 :: zeroPrefix n xs

/-- `bignum_reset` (lines 373-381): if the number is non-zero, zero out
the digit cells `0 .. sig_digs-1` (only those) and clear `power` and
`sig_digs`; a zero bignum is left untouched. -/
def bignum_reset (numval : Bignum) : Bignum :=
  if 0 < numval.sig_digs then
    { numval with
      power := 0
      sig_digs := 0
      digits := zeroPrefix numval.sig_digs numval.digits }
  else numval

/-- The copy loop of `bignum_set` (lines 440-442): cell `i` of the
destination receives cell `i` of the source, for `i < n`. -/
def copyPrefixLoop (src : List Nat) : Nat → List Nat → List Nat
  | 0, dst => dst
  | i + 1, dst => (copyPrefixLoop src i dst).set i (src.getD i 0)

/-- `bignum_set` (lines 434-446): copy `oldnum` into `newnum`, truncating
the digit count at `newnum.precision`; digit cells of `newnum` beyond the
copied range are NOT cleared.  A zero source resets the destination. -/
def bignum_set (newnum oldnum : Bignum) : Bignum :=
  if 0 < oldnum.sig_digs then
    let s := if newnum.precision < oldnum.sig_digs then newnum.precision
             else oldnum.sig_digs
    { newnum with
      power := oldnum.power
      sig_digs := s
      digits := copyPrefixLoop oldnum.digits s newnum.digits }
  else bignum_reset newnum

/-- The digit-extraction `while (temp_int > 0)` loop of `bignum_set_int`
(lines 404-408), producing the decimal digits of `n` least-significant
first.  The first argument is fuel consumed strictly; `n` itself always
suffices because `n / 10 < n` for `n > 0`. -/
def set_int_loop : Nat → Nat → List Nat
  | 0, _ => []
  | f + 1, n => if n = 0 then [] else n % 10 :: set_int_loop f (n / 10)

/-- The extraction loop at its call site: fuel `n`. -/
def set_int_extract (n : Nat) : List Nat :=
  set_int_loop n n

/-- The final copy loop of `bignum_set_int` (lines 420-422): destination
cell `t` receives scratch cell `counter - t - 1`, for `t < n`. -/
def set_int_copy (tw : List Nat) (counter : Nat) : Nat → List Nat → List Nat
  | 0, dst => dst
  | t + 1, dst => (set_int_copy tw counter t dst).set t (tw.getD (counter - t - 1) 0)

/-- `bignum_set_int` (lines 397-428): ingest a non-negative integer.  The
digits are extracted LSD-first into a scratch word, trailing zeros of the
integer (leading cells of the scratch) are skipped, and the rest is
copied MSD-first; digit cells beyond the copied range are NOT cleared.
`intval ≤ 0` resets the destination.  NOTE: the C allocates the scratch
with only `precision` cells and writes the final digits with no bound
check, so an integer needing more than `precision` digits overruns both
buffers (undefined behaviour; here the extraction list holds every digit
and the out-of-range final writes are dropped).  The only C failure path
is `calloc` failure, not modelled. -/
def bignum_set_int (numval : Bignum) (intval : Int) : Bignum :=
  if 0 < intval then
    let tw := set_int_extract intval.toNat
    let counter := tw.length
    let leadingzeros := (tw.takeWhile (fun d => d == 0)).length
    { numval with
      power := (counter : Int) - 1
      sig_digs := counter - leadingzeros
      digits := set_int_copy tw counter (counter - leadingzeros) numval.digits }
  else bignum_reset numval

/-- Concatenation of the decimal renderings of `len` digit cells starting
at index `start` (each cell printed with `printf("%d", ...)`). -/
def digitsString (l : List Nat) (start len : Nat) : String :=
  String.join ((List.range len).map (fun i => toString (l.getD (start + i) 0)))

/-- A run of `k` printed zero characters. -/
def zerosString (k : Nat) : String :=
  String.join (List.replicate k "0")

/-- `bignum_print` (lines 459-492), reified as the string the `printf`
calls emit.  Cases: zero prints `0`; negative power prints `0.`, then
`-power-1` zeros, then `limit` digits; `sig_digs > power+1` prints the
integer part, a point if any fractional digit survives `limit`, then the
fractional digits; otherwise all `sig_digs` digits.  The final block pads
with `power+1-sig_digs` trailing zeros when the power exceeds the stored
digit count. -/
def bignum_print_string (numval : Bignum) (maxdigits : Int) : String :=
  if numval.sig_digs = 0 then "0"
  else
    let limit : Nat :=
      if 0 < maxdigits ∧ maxdigits < (numval.sig_digs : Int) then maxdigits.toNat
      else numval.sig_digs
    let core :=
      if numval.power < 0 then
        "0." ++ zerosString (-numval.power - 1).toNat ++
          digitsString numval.digits 0 limit
      else if (numval.power + 1 : Int) < (numval.sig_digs : Int) then
        digitsString numval.digits 0 (numval.power.toNat + 1) ++
          (if (numval.power + 1 : Int) < (limit : Int) then "." else "") ++
          digitsString numval.digits (numval.power.toNat + 1)
            (limit - (numval.power.toNat + 1))
      else
        digitsString numval.digits 0 numval.sig_digs
    let pad :=
      if 0 < numval.power ∧ (numval.sig_digs : Int) < numval.power + 1 then
        zerosString (numval.power + 1 - (numval.sig_digs : Int)).toNat
      else ""
    core ++ pad

/-- The shift-copy loop of `bignum_add` (lines 553-562): `n` iterations,
target cell `j` descending from `startdigitcopy - 1`; the smaller
operand's cell `j - d` is copied in when `d ≤ j` (the C guard
`(startdigit - difference) >= 0`). -/
def addCopyLoop (smalld : List Nat) (d : Nat) : Nat → Nat → List Nat → List Nat
  | 0, _, dst => dst
  | n + 1, j, dst =>
    addCopyLoop smalld d n (j - 1)
      (if d ≤ j then dst.set j (smalld.getD (j - d) 0) else dst)

/-- The main addition loop of `bignum_add` (lines 574-589).  `addLoop big
k f carry tz zc` processes digit cells `k-1, k-2, …, 0` (the C iterates
`i = 0, …, sig_digs-1` over cell `startdigitcopy - i - 1`, i.e. from the
least-significant stored cell upward).  Each step adds the corresponding
cell of the larger operand plus the carry into the partial-sum cell,
renormalizes mod 10, and tracks the run of trailing zeros (`tz` = still
inside the trailing-zero run, `zc` = its length).  Returns the updated
store, the final carry, the flag, and the zero count. -/
def addLoop (big : List Nat) : Nat → List Nat → Nat → Bool → Nat →
    (List Nat × Nat × Bool × Nat)
  | 0, f, carry, tz, zc => (f, carry, tz, zc)
  | k + 1, f, carry, tz, zc =>
    let v := f.getD k 0 + big.getD k 0 + carry
    let v2 := if 10 ≤ v then v - 10 else v
    let c2 := if 10 ≤ v then 1 else 0
    let tz2 := tz && (v2 == 0)
    let zc2 := if tz2 then zc + 1 else zc
    addLoop big k (f.set k v2) c2 tz2 zc2

/-- The carry-shift loop of `bignum_add` (lines 597-607): `n` iterations,
source cell `sdc` descending from `transfertotal - 1`, each copying cell
`sdc` into cell `sdc + 1`.  Every source cell is read before any write
reaches it, and the `else if` branch of the C (write a 0 when `sdc` has
gone negative but `sdc + 1` has not) is unreachable because the loop
count equals the starting index plus one. -/
def addShiftLoop : Nat → Nat → List Nat → List Nat
  | 0, _, dst => dst
  | n + 1, sdc, dst => addShiftLoop n (sdc - 1) (dst.set (sdc + 1) (dst.getD sdc 0))

/-- The tail of `bignum_add` (lines 591-611): subtract the trailing-zero
count from `sig_digs`, and on a final carry shift the digit cells right
by one (discarding the least-significant cell when the budget is full),
put the carry at cell 0, and bump `power` and `sig_digs`. -/
def addFinish (r0 : Bignum) (pw : Int) (s : Nat)
    (res : List Nat × Nat × Bool × Nat) : Bignum :=
  let f2 := res.1
  let carry := res.2.1
  let zc := res.2.2.2
  let sig2 := s - zc
  if 0 < carry then
    let t := if sig2 = r0.precision then sig2 - 1 else sig2
    { r0 with
      power := pw + 1
      sig_digs := sig2 + 1
      digits := (addShiftLoop t (t - 1) f2).set 0 carry }
  else
    { r0 with power := pw, sig_digs := sig2, digits := f2 }

/-- The main path of `bignum_add` (lines 532-611), after the operands
have been sorted into `bigger`/`smaller` by power.  The smaller operand
is laid into the result shifted right by the power difference `d` and
truncated at the precision, then the digit loop and the finishing step
run. -/
def bignum_add_core (r0 bigger smaller : Bignum) : Bignum :=
  let d := (bigger.power - smaller.power).toNat
  let startdigit0 := smaller.sig_digs + d
  let startdigitcopy :=
    if r0.precision < startdigit0 then r0.precision - d else startdigit0
  let transfertotal :=
    if r0.precision < startdigit0 then r0.precision - d else smaller.sig_digs
  let f1 := addCopyLoop smaller.digits d transfertotal (startdigitcopy - 1) r0.digits
  let s := if startdigitcopy < bigger.sig_digs then bigger.sig_digs else startdigitcopy
  addFinish r0 bigger.power s (addLoop bigger.digits s f1 0 true 0)

/-- `bignum_add` (lines 507-614): reset the result, take the zero-operand
shortcuts, take the over-shift shortcut when the powers differ by more
than the result's precision, otherwise run the main path with the
larger-power operand as `bigger` (ties go to the left operand).  The C
returns 1 on every path (it cannot fail), so the model is total. -/
def bignum_add (resultnum leftnum rightnum : Bignum) : Bignum :=
  let r0 := bignum_reset resultnum
  if leftnum.sig_digs = 0 ∧ 0 < rightnum.sig_digs then bignum_set r0 rightnum
  else if rightnum.sig_digs = 0 ∧ 0 < leftnum.sig_digs then bignum_set r0 leftnum
  else if leftnum.sig_digs = 0 ∧ rightnum.sig_digs = 0 then r0
  else if 0 < leftnum.power - rightnum.power ∧
      (r0.precision : Int) < leftnum.power - rightnum.power then
    bignum_set r0 leftnum
  else if 0 < rightnum.power - leftnum.power ∧
      (r0.precision : Int) < rightnum.power - leftnum.power then
    bignum_set r0 rightnum
  else if 0 ≤ leftnum.power - rightnum.power then
    bignum_add_core r0 leftnum rightnum
  else
    bignum_add_core r0 rightnum leftnum

/-- `bignum_add_int` (lines 620-641): shortcut when either side is zero,
otherwise materialize the integer as a temporary bignum of the result's
precision and add.  The C failure paths are `calloc` failures inside
`bignum_init`/`bignum_set_int`, not modelled. -/
def bignum_add_int (resultnum leftnum : Bignum) (rightint : Int) : Bignum :=
  let r0 := bignum_reset resultnum
  if rightint = 0 ∧ 0 < leftnum.sig_digs then bignum_set r0 leftnum
  else if leftnum.sig_digs = 0 ∧ 0 < rightint then bignum_set_int r0 rightint
  else if leftnum.sig_digs = 0 ∧ rightint = 0 then r0
  else
    let tempnum := bignum_set_int (bignum_init resultnum.precision) rightint
    bignum_add r0 leftnum tempnum

/-- Inner shift-addition loop of `bignum_mult` (lines 681-689) for one
digit `sd` of the smaller operand at outer index `bigcounter`: iterate
`smallcounter = 0, …, bigsig-1` (here `smallcounter = bigsig - n` with
`n` the remaining count), accumulating `sd * bigger.digits[bigsig - 1 -
smallcounter]` plus the carry into scratch cell `twop - smallcounter -
bigcounter - 1` and renormalizing mod 10. -/
def multInner (sd : Nat) (bigd : List Nat) (bigsig twop bigcounter : Nat) :
    Nat → List Nat → Nat → (List Nat × Nat)
  | 0, tw, carry => (tw, carry)
  | n + 1, tw, carry =>
    let sc := bigsig - (n + 1)
    let pos := twop - sc - bigcounter - 1
    let v := tw.getD pos 0 + carry + sd * bigd.getD (bigsig - 1 - sc) 0
    multInner sd bigd bigsig twop bigcounter n (tw.set pos (v % 10)) (v / 10)

/-- Outer loop of `bignum_mult` (lines 678-693): iterate over the digits
of the smaller operand from least significant (`bigcounter = ssig - n`),
skipping zero digits; after each executed inner loop the final carry is
written one cell above the partial product.  The carry state persists
across skipped iterations, as in the C. -/
def multOuter (smalld bigd : List Nat) (ssig bigsig twop : Nat) :
    Nat → List Nat → Nat → (List Nat × Nat)
  | 0, tw, carry => (tw, carry)
  | n + 1, tw, carry =>
    let bc := ssig - (n + 1)
    let sd := smalld.getD (ssig - 1 - bc) 0
    if sd ≠ 0 then
      let inner := multInner sd bigd bigsig twop bc bigsig tw 0
      multOuter smalld bigd ssig bigsig twop n
        (inner.1.set (twop - bc - bigsig - 1) inner.2) inner.2
    else
      multOuter smalld bigd ssig bigsig twop n tw carry

/-- The trailing-zero scan of `bignum_mult` (lines 703-711) and of the
end of `bignum_divide` (lines 881-889): count consecutive zero cells
starting at index `i` and walking down.  The C loop would walk past cell
0 (out of bounds) if every cell were zero, which cannot happen on the
paths that reach it; the model stops after cell 0. -/
def scanZerosDown (l : List Nat) : Nat → Nat
  | 0 => if l.getD 0 0 = 0 then 1 else 0
  | i + 1 => if l.getD (i + 1) 0 = 0 then scanZerosDown l i + 1 else 0

/-- The final copy loop of `bignum_mult` (lines 722-724): destination
cell `i` receives scratch cell `tempstart + i`, for `i < n`. -/
def multCopyLoop (tw : List Nat) (tempstart : Nat) : Nat → List Nat → List Nat
  | 0, dst => dst
  | i + 1, dst => (multCopyLoop tw tempstart i dst).set i (tw.getD (tempstart + i) 0)

/-- `bignum_mult` (lines 652-728): zero shortcut, then the shift-addition
schoolbook loop over a `2·precision`-cell scratchpad, then the
power/sig_digs adjustment for a missing final carry, trailing-zero
normalization, clamp to the precision, and the copy of the top digits of
the scratchpad into the result.  The scratch index arithmetic can go
negative in C only for malformed operands (out of bounds); `Nat`
subtraction models the well-formed cases exactly. -/
def bignum_mult (resultnum leftnum rightnum : Bignum) : Bignum :=
  let r0 := bignum_reset resultnum
  if leftnum.sig_digs = 0 ∨ rightnum.sig_digs = 0 then r0
  else
    let bigger :=
      if 0 ≤ (leftnum.sig_digs : Int) - (rightnum.sig_digs : Int) then leftnum
      else rightnum
    let smaller :=
      if 0 ≤ (leftnum.sig_digs : Int) - (rightnum.sig_digs : Int) then rightnum
      else leftnum
    let twop := 2 * r0.precision
    let res := multOuter smaller.digits bigger.digits smaller.sig_digs
      bigger.sig_digs twop smaller.sig_digs (List.replicate twop 0) 0
    let tw := res.1
    let carry := res.2
    let power2 := (if carry < 1 then bigger.power + smaller.power - 1
                   else bigger.power + smaller.power) + 1
    let sig2 := if carry < 1 then bigger.sig_digs + smaller.sig_digs - 1
                else bigger.sig_digs + smaller.sig_digs
    let zc := scanZerosDown tw (twop - 1)
    let sig3 := sig2 - zc
    let sig4 := if r0.precision < sig3 then r0.precision else sig3
    let tempstart := (twop - (bigger.sig_digs + smaller.sig_digs)) +
      (if carry < 1 then 1 else 0)
    { r0 with
      power := power2
      sig_digs := sig4
      digits := multCopyLoop tw tempstart sig4 r0.digits }

/-- `bignum_mult_int` (lines 733-747): zero shortcut, otherwise
materialize the integer and multiply. -/
def bignum_mult_int (resultnum leftnum : Bignum) (rightint : Int) : Bignum :=
  let r0 := bignum_reset resultnum
  if leftnum.sig_digs = 0 ∨ rightint = 0 then r0
  else
    let tempnum := bignum_set_int (bignum_init resultnum.precision) rightint
    bignum_mult r0 leftnum tempnum

/-- The initial numerator copy of `bignum_divide` (lines 769-771):
scratch cell `i + 1` receives numerator digit `i`, for `i < n`. -/
def divInitLoop (numd : List Nat) : Nat → List Int → List Int
  | 0, tw => tw
  | i + 1, tw => (divInitLoop numd i tw).set (i + 1) (numd.getD i 0 : Int)

/-- The MSD-first lexicographic comparison loops of `bignum_divide`
(lines 777-793 and 816-836): `true` iff the denominator is strictly
greater than the window of scratch cells starting at `base`.  The C
iterates `i = dsig-1, …, 0`, comparing denominator digit `dsig-1-i`
against scratch cell `base + (dsig-1-i)`; equality on the last digit
(`i = 0`) yields `false`.  Here `m` counts the comparisons remaining, so
the digit position is `dsig - m`. -/
def denomBiggerCmp (dd : List Nat) (dsig : Nat) (tw : List Int) (base : Nat) :
    Nat → Bool
  | 0 => true
  | m + 1 =>
    let t := dsig - (m + 1)
    if (dd.getD t 0 : Int) > tw.getD (base + t) 0 then true
    else if (dd.getD t 0 : Int) < tw.getD (base + t) 0 then false
    else if m = 0 then false
    else denomBiggerCmp dd dsig tw base m

/-- One in-place subtraction of the denominator from the scratch window
(lines 842-856): iterate `i = 0, …, dsig-1` (here `i = dsig - m`), cell
`dsig + ni - i` descending, borrowing from the next cell up on
underflow.  Each borrow target is processed only by a later iteration. -/
def subtractDenom (dd : List Nat) (dsig ni : Nat) : Nat → List Int → List Int
  | 0, tw => tw
  | m + 1, tw =>
    let i := dsig - (m + 1)
    let pos := dsig + ni - i
    let v := tw.getD pos 0 - (dd.getD (dsig - i - 1) 0 : Int)
    let tw2 :=
      if v < 0 then (tw.set pos (v + 10)).set (pos - 1) (tw.getD (pos - 1) 0 - 1)
      else tw.set pos v
    subtractDenom dd dsig ni m tw2

/-- The `while (numer_bigger == 1)` subtraction loop of `bignum_divide`
(lines 811-857): repeatedly compare the scratch window (a positive
overflow cell `tw[ni]` makes the window bigger outright) and subtract
the denominator, counting subtractions into the current result digit.
The C loop terminates because each subtraction shrinks the window; for
all data reachable with well-formed operands the digit is at most 9, so
the fuel of 12 supplied at the call site is never exhausted. -/
def divSubLoop (dd : List Nat) (dsig ni : Nat) : Nat → List Int → Nat →
    (List Int × Nat)
  | 0, tw, digit => (tw, digit)
  | fuel + 1, tw, digit =>
    let db := if 0 < tw.getD ni 0 then false
              else denomBiggerCmp dd dsig tw (ni + 1) dsig
    if db then (tw, digit)
    else divSubLoop dd dsig ni fuel (subtractDenom dd dsig ni dsig tw) (digit + 1)

/-- The early-termination zero scan of `bignum_divide` (lines 862-868):
the length of the initial run of cells `< 1` among the `m` scratch cells
starting at `start` (the C checks `dsig + 1` cells). -/
def zeroRunUp (tw : List Int) : Nat → Nat → Nat
  | _, 0 => 0
  | start, m + 1 => if tw.getD start 0 < 1 then zeroRunUp tw (start + 1) m + 1 else 0

/-- State threaded through the main division loop: the scratchpad, the
result-digit counter, the window index, the result digit store, and the
`nonzero` early-termination flag. -/
structure DivState where
  tw : List Int
  sigdigctr : Nat
  ni : Nat
  digitsAcc : List Nat
  nonzero : Bool

/-- The main `while ((sigdigctr < precision) && (nonzero == 1))` loop of
`bignum_divide` (lines 809-877).  The fuel `m` equals
`precision - sigdigctr`, which the C loop condition makes exact because
`sigdigctr` increments once per iteration.  Each iteration runs the
subtraction loop (fuel 12, see `divSubLoop`), then the early-termination
scan once the counter has passed the numerator's digit count, then
stores the digit. -/
def divLoop (dd : List Nat) (dsig numsig precision : Nat) : Nat → DivState → DivState
  | 0, st => st
  | m + 1, st =>
    if st.nonzero then
      let sub := divSubLoop dd dsig st.ni 12 st.tw 0
      let nz2 :=
        if numsig < st.sigdigctr then
          if zeroRunUp sub.1 st.ni (dsig + 1) = dsig + 1 then false else st.nonzero
        else st.nonzero
      let da2 :=
        if st.sigdigctr < precision then st.digitsAcc.set st.sigdigctr sub.2
        else st.digitsAcc
      divLoop dd dsig numsig precision m
        { tw := sub.1, sigdigctr := st.sigdigctr + 1, ni := st.ni + 1,
          digitsAcc := da2, nonzero := nz2 }
    else st

/-- `bignum_divide` (lines 758-894): error (`none`) on a zero
denominator, zero result on a zero numerator; otherwise schoolbook long
division.  The numerator is copied into a `2·precision + 2`-cell
scratchpad shifted up by one cell, the power is the difference of the
powers, decremented once more when the leading window is
lexicographically smaller than the denominator, then the main loop runs
and trailing zeros are removed from the digit count.  The C's remaining
failure path is `calloc` failure, not modelled. -/
def bignum_divide (resultnum numerator denominator : Bignum) : Option Bignum :=
  let r0 := bignum_reset resultnum
  if denominator.sig_digs = 0 then none
  else if numerator.sig_digs = 0 then some r0
  else
    let tw0 := divInitLoop numerator.digits numerator.sig_digs
      (List.replicate (2 * r0.precision + 2) 0)
    let shift := denomBiggerCmp denominator.digits denominator.sig_digs tw0 1
      denominator.sig_digs
    let stF := divLoop denominator.digits denominator.sig_digs numerator.sig_digs
      r0.precision r0.precision
      { tw := tw0, sigdigctr := 0, ni := if shift then 1 else 0,
        digitsAcc := r0.digits, nonzero := true }
    let power1 := (numerator.power - denominator.power) - (if shift then 1 else 0)
    let zc := scanZerosDown stF.digitsAcc (stF.sigdigctr - 1)
    some { r0 with
      power := power1
      sig_digs := stF.sigdigctr - zc
      digits := stF.digitsAcc }

/-- `bignum_int_divide` (lines 899-914): integer numerator; fails on a
zero denominator, zero shortcut on a zero numerator. -/
def bignum_int_divide (resultnum : Bignum) (leftint : Int) (rightnum : Bignum) :
    Option Bignum :=
  let r0 := bignum_reset resultnum
  if rightnum.sig_digs = 0 then none
  else if leftint = 0 then some r0
  else
    let tempnum := bignum_set_int (bignum_init resultnum.precision) leftint
    bignum_divide r0 tempnum rightnum

/-- `bignum_divide_int` (lines 919-934): integer denominator; fails on a
zero integer, zero shortcut on a zero numerator. -/
def bignum_divide_int (resultnum leftnum : Bignum) (rightint : Int) : Option Bignum :=
  let r0 := bignum_reset resultnum
  if rightint = 0 then none
  else if leftnum.sig_digs = 0 then some r0
  else
    let tempnum := bignum_set_int (bignum_init resultnum.precision) rightint
    bignum_divide r0 leftnum tempnum

/-- The driver's work partition (main, lines 145-157): worker `j` gets
the half-open range of subinterval indices starting at
`j * (iterations / num_threads)`. -/
def worker_lo (iterations num_threads j : Nat) : Nat :=
  j * (iterations / num_threads)

/-- Upper end of worker `j`'s range (main, lines 148-149): the last
worker absorbs the remainder `iterations % num_threads`. -/
def worker_hi (iterations num_threads j : Nat) : Nat :=
  if j + 1 = num_threads then iterations else (j + 1) * (iterations / num_threads)

/-- The reference constant `accepted_pi` (lines 116-117): the first 100
decimal digits of pi as a string, including the leading `3.`. -/
def accepted_pi : String :=
  "3.14159265358979323846264338327950288419716939937510" ++
    "58209749445923078164062862089986280348253421170679"

/-- The second output line of `main` (lines 205-214): the fixed prefix
followed by characters `2, …, max_digits` of `accepted_pi` (the loop
body prints `accepted_pi[i + 2]` for `i = 0, …, max_digits - 2`). -/
def actual_pi_line (max_digits : Nat) : String :=
  "The actual value of pi is     3." ++
    String.mk ((accepted_pi.toList.drop 2).take (max_digits - 1))

/-- The digit-store invariant the arithmetic relies on: every cell at
index `sig_digs` or beyond holds 0 (cells past the end of the array read
as 0). -/
def ZeroBeyond (b : Bignum) : Prop :=
  ∀ i, b.sig_digs ≤ i → b.digits.getD i 0 = 0

/-- Both structural invariants of the spec: the digit count fits the
budget, and a non-zero number has a non-zero first and last stored
digit. -/
def SpecInvariant (b : Bignum) : Prop :=
  b.sig_digs ≤ b.precision ∧
    (0 < b.sig_digs → b.digits.getD 0 0 ≠ 0 ∧ b.digits.getD (b.sig_digs - 1) 0 ≠ 0)

/-- Claim C1 (code_bug evidence): the spec's invariant `sig_digs ≤
precision` is violated by `bignum_add` when a final carry occurs while
the digit count already fills the precision: adding 99 and 2 at
precision 2 yields `sig_digs = 3 > 2 = precision` (the C subsequently
indexes `digits[sig_digs-1]` out of bounds).  All three bignums are built
by public operations, so the violating state is reachable. -/
theorem c1_add_overflows_sig_digs :
    (bignum_add (bignum_init 2) (bignum_set_int (bignum_init 2) 99)
        (bignum_set_int (bignum_init 2) 2)).sig_digs = 3 ∧
    (bignum_add (bignum_init 2) (bignum_set_int (bignum_init 2) 99)
        (bignum_set_int (bignum_init 2) 2)).precision = 2 ∧
    ¬ SpecInvariant (bignum_add (bignum_init 2) (bignum_set_int (bignum_init 2) 99)
        (bignum_set_int (bignum_init 2) 2)) := by
  refine ⟨by decide, by decide, ?_⟩
  intro h
  exact absurd h.1 (by decide)

/-- Claim C2: `bignum_divide` signals an error exactly when the
denominator has no significant digits (allocation is modelled as always
succeeding), and for a zero numerator with a non-zero denominator it
succeeds with the result reset to zero. -/
theorem c2_divide_error_iff (r num denom : Bignum) :
    ((bignum_divide r num denom).isNone ↔ denom.sig_digs = 0) ∧
    (denom.sig_digs ≠ 0 → num.sig_digs = 0 →
      bignum_divide r num denom = some (bignum_reset r) ∧
        (bignum_reset r).sig_digs = 0) := by
  have hreset : (bignum_reset r).sig_digs = 0 := by
    unfold bignum_reset
    split
    · rfl
    · omega
  constructor
  · unfold bignum_divide
    by_cases h : denom.sig_digs = 0 <;> by_cases h2 : num.sig_digs = 0 <;>
      simp [h, h2]
  · intro h1 h2
    unfold bignum_divide
    simp [h1, h2, hreset]

/-- Witness for C2 at a concrete input: numerator 0, denominator 5,
precision 3. -/
theorem c2_divide_error_iff_witness :
    bignum_divide (bignum_init 3) (bignum_init 3) (bignum_set_int (bignum_init 3) 5) =
        some (bignum_reset (bignum_init 3)) ∧
      (bignum_reset (bignum_init 3)).sig_digs = 0 :=
  (c2_divide_error_iff (bignum_init 3) (bignum_init 3)
    (bignum_set_int (bignum_init 3) 5)).2 (by decide) (by decide)

/-- Claim C4: at precision 25, `set_int(a, 999); add_int(r, a, 1)` prints
exactly `1000`, with the trailing zeros normalized away (`sig_digs = 1`)
and `power = 3`. -/
theorem c4_add_999_1 :
    bignum_print_string
        (bignum_add_int (bignum_init 25) (bignum_set_int (bignum_init 25) 999) 1) 0 =
      "1000" ∧
    (bignum_add_int (bignum_init 25) (bignum_set_int (bignum_init 25) 999) 1).sig_digs
      = 1 ∧
    (bignum_add_int (bignum_init 25) (bignum_set_int (bignum_init 25) 999) 1).power
      = 3 := by
  refine ⟨?_, by decide, by decide⟩
  decide

/-- Claim C9 (counterexample): at digit budget 25 the second output line
is NOT the string the claim asserts; the digits `…463383` do not occur in
the reference constant at that position. -/
theorem c9_line2_counterexample :
    actual_pi_line 25 ≠ "The actual value of pi is     3.141592653589793238463383" := by
  decide

/-- Claim C9 (amended): at digit budget 25 the second output line is
`The actual value of pi is     3.141592653589793238462643` — the first
24 fractional digits of the stored reference constant. -/
theorem c9_line2_value :
    actual_pi_line 25 = "The actual value of pi is     3.141592653589793238462643" := by
  decide

/-- Claim C7 (counterexample): with `N = 1` iteration and `W = 2` workers
(both ≥ 1), worker 0 receives the empty range `[0, 0)`, so the claimed
`lo < hi` fails for a non-last worker. -/
theorem c7_partition_counterexample :
    worker_lo 1 2 0 = 0 ∧ worker_hi 1 2 0 = 0 ∧
      ¬ worker_lo 1 2 0 < worker_hi 1 2 0 := by
  decide

/-- Claim C7 (amended): for every `N ≥ 1` and `W ≥ 1` the driver's
partition has `lo_j = j·⌊N/W⌋`, `hi_j = (j+1)·⌊N/W⌋` except
`hi_{W-1} = N`; it is contiguous, each range satisfies
`lo ≤ hi ≤ N` (with `lo < hi` provided `W ≤ N`; when `W > N` the
non-last ranges are empty), the ranges are pairwise disjoint, worker 0
starts at 0, and the union is exactly `[0, N)`. -/
theorem c7_partition_amended (N W : Nat) (hN : 1 ≤ N) (hW : 1 ≤ W) :
    worker_lo N W 0 = 0 ∧
    worker_hi N W (W - 1) = N ∧
    (∀ j, j < W → worker_lo N W j = j * (N / W)) ∧
    (∀ j, j + 1 < W → worker_hi N W j = (j + 1) * (N / W)) ∧
    (∀ j, j + 1 < W → worker_hi N W j = worker_lo N W (j + 1)) ∧
    (∀ j, j < W → worker_lo N W j ≤ worker_hi N W j ∧ worker_hi N W j ≤ N) ∧
    (W ≤ N → ∀ j, j < W → worker_lo N W j < worker_hi N W j) ∧
    (∀ x, x < N ↔ ∃ j, j < W ∧ worker_lo N W j ≤ x ∧ x < worker_hi N W j) ∧
    (∀ j k, j < W → k < W → j ≠ k →
      ∀ x, worker_lo N W j ≤ x → x < worker_hi N W j →
        ¬ (worker_lo N W k ≤ x ∧ x < worker_hi N W k)) := by
  have hWq : W * (N / W) ≤ N := by
    rw [Nat.mul_comm]
    exact Nat.div_mul_le_self N W
  have hlo : ∀ j, worker_lo N W j = j * (N / W) := fun j => rfl
  have hhi_last : worker_hi N W (W - 1) = N := by
    unfold worker_hi
    have : W - 1 + 1 = W := by omega
    simp [this]
  have hhi_mid : ∀ j, j + 1 < W → worker_hi N W j = (j + 1) * (N / W) := by
    intro j hj
    unfold worker_hi
    have : ¬ (j + 1 = W) := by omega
    simp [this]
  have hhi_leN : ∀ j, j < W → worker_hi N W j ≤ N := by
    intro j hj
    by_cases h : j + 1 = W
    · unfold worker_hi; simp [h]
    · rw [hhi_mid j (by omega)]
      calc (j + 1) * (N / W) ≤ W * (N / W) :=
            Nat.mul_le_mul_right _ (by omega)
        _ ≤ N := hWq
  have hlo_le_hi : ∀ j, j < W → worker_lo N W j ≤ worker_hi N W j := by
    intro j hj
    by_cases h : j + 1 = W
    · rw [hlo j]
      have h1 : j * (N / W) ≤ W * (N / W) := Nat.mul_le_mul_right _ (by omega)
      have h2 : worker_hi N W j = N := by unfold worker_hi; simp [h]
      omega
    · rw [hlo j, hhi_mid j (by omega)]
      exact Nat.mul_le_mul_right _ (by omega)
  refine ⟨by rw [hlo]; omega, hhi_last, fun j _ => hlo j, hhi_mid,
    ?_, fun j hj => ⟨hlo_le_hi j hj, hhi_leN j hj⟩, ?_, ?_, ?_⟩
  · intro j hj
    rw [hhi_mid j hj, hlo (j + 1)]
  · -- strict lo < hi when W ≤ N
    intro hWN j hj
    have hq1 : 1 ≤ N / W := (Nat.one_le_div_iff (by omega)).2 hWN
    by_cases h : j + 1 = W
    · rw [hlo j]
      have h2 : worker_hi N W j = N := by unfold worker_hi; simp [h]
      have h3 : j * (N / W) + 1 * (N / W) = W * (N / W) := by
        rw [← Nat.add_mul]; rw [show j + 1 = W from h]
      have h4 : 1 * (N / W) = N / W := Nat.one_mul _
      omega
    · rw [hlo j, hhi_mid j (by omega)]
      have : j * (N / W) + 1 * (N / W) = (j + 1) * (N / W) := by
        rw [← Nat.add_mul]
      have h4 : 1 * (N / W) = N / W := Nat.one_mul _
      omega
  · -- union is exactly [0, N)
    intro x
    constructor
    · intro hx
      by_cases hq : N / W = 0
      · exact ⟨W - 1, by omega, by rw [hlo]; simp [hq], by rw [hhi_last]; exact hx⟩
      · by_cases hj : x / (N / W) < W - 1
        · refine ⟨x / (N / W), by omega, ?_, ?_⟩
          · rw [hlo]
            exact Nat.div_mul_le_self x (N / W)
          · rw [hhi_mid _ (by omega)]
            have h1 : N / W * (x / (N / W)) + x % (N / W) = x :=
              Nat.div_add_mod x (N / W)
            have h2 : x % (N / W) < N / W := Nat.mod_lt _ (Nat.pos_of_ne_zero hq)
            have h3 : (x / (N / W) + 1) * (N / W) =
                x / (N / W) * (N / W) + N / W := by
              rw [Nat.add_mul, Nat.one_mul]
            have h4 : x / (N / W) * (N / W) = N / W * (x / (N / W)) :=
              Nat.mul_comm _ _
            omega
        · refine ⟨W - 1, by omega, ?_, by rw [hhi_last]; exact hx⟩
          rw [hlo]
          calc (W - 1) * (N / W) ≤ x / (N / W) * (N / W) :=
                Nat.mul_le_mul_right _ (by omega)
            _ ≤ x := Nat.div_mul_le_self x (N / W)
    · rintro ⟨j, hj, _, hxhi⟩
      exact lt_of_lt_of_le hxhi (hhi_leN j hj)
  · -- pairwise disjoint
    have key : ∀ j k, j < k → k < W →
        ∀ x, x < worker_hi N W j → worker_lo N W k ≤ x → False := by
      intro j k hjk hk x hxj hxk
      have hj1 : j + 1 < W := by omega
      rw [hhi_mid j hj1] at hxj
      rw [hlo k] at hxk
      have : (j + 1) * (N / W) ≤ k * (N / W) := Nat.mul_le_mul_right _ (by omega)
      omega
    intro j k hj hk hjk x hlox hhix hcontra
    rcases Nat.lt_or_ge j k with h | h
    · exact key j k h hk x hhix hcontra.1
    · have : k < j := by omega
      exact key k j this hj x hcontra.2 hlox

/-- Witness for the amended C7 at the canonical invocation
`N = 20000, W = 8`. -/
theorem c7_partition_amended_witness :
    worker_lo 20000 8 0 = 0 ∧ worker_hi 20000 8 (8 - 1) = 20000 :=
  ⟨(c7_partition_amended 20000 8 (by decide) (by decide)).1,
    (c7_partition_amended 20000 8 (by decide) (by decide)).2.1⟩

theorem getD_set {α : Type} (l : List α) (i j : Nat) (v d : α) :
    (l.set i v).getD j d = if j = i ∧ i < l.length then v else l.getD j d := by
  induction l generalizing i j with
  | nil => simp [List.set]
  | cons x xs ih =>
    cases i with
    | zero =>
      cases j with
      | zero => simp
      | succ j => simp [List.getD]
    | succ i =>
      cases j with
      | zero => simp [List.getD]
      | succ j =>
        simp only [List.set, List.getD_cons_succ, List.length_cons, ih]
        have hiff : (j + 1 = i + 1 ∧ i + 1 < xs.length + 1) ↔
            (j = i ∧ i < xs.length) := by omega
        rw [if_congr hiff rfl rfl]

theorem getD_replicate {α : Type} (n i : Nat) (a d : α) :
    (List.replicate n a).getD i d = if i < n then a else d := by
  induction n generalizing i with
  | zero => simp
  | succ n ih =>
    cases i with
    | zero => simp [List.replicate]
    | succ i =>
      have hiff : (i + 1 < n + 1) ↔ (i < n) := by omega
      rw [List.replicate, List.getD_cons_succ, ih, if_congr hiff rfl rfl]

theorem set_int_loop_eq_digits (f : Nat) : ∀ n, n ≤ f → set_int_loop f n = Nat.digits 10 n := by
  induction f with
  | zero =>
    intro n hn
    have : n = 0 := by omega
    simp [this, set_int_loop]
  | succ f ih =>
    intro n hn
    by_cases hz : n = 0
    · simp [hz, set_int_loop]
    · have hpos : 0 < n := Nat.pos_of_ne_zero hz
      have hdiv : n / 10 ≤ f := by
        have := Nat.div_lt_self hpos (by norm_num : 1 < 10)
        omega
      rw [show set_int_loop (f + 1) n = n % 10 :: set_int_loop f (n / 10) by
            simp [set_int_loop, hz],
        ih (n / 10) hdiv, Nat.digits_def' (by norm_num : 1 < 10) hpos]

theorem set_int_extract_eq_digits (n : Nat) : set_int_extract n = Nat.digits 10 n :=
  set_int_loop_eq_digits n n le_rfl

theorem set_int_copy_length (tw : List Nat) (counter : Nat) (count : Nat)
    (dst : List Nat) : (set_int_copy tw counter count dst).length = dst.length := by
  induction count with
  | zero => rfl
  | succ t ih => simp [set_int_copy, ih]

theorem set_int_copy_getD (tw : List Nat) (counter : Nat) (count : Nat)
    (dst : List Nat) (i : Nat) :
    (set_int_copy tw counter count dst).getD i 0 =
      if i < count ∧ i < dst.length then tw.getD (counter - i - 1) 0
      else dst.getD i 0 := by
  induction count with
  | zero => simp [set_int_copy]
  | succ t ih =>
    unfold set_int_copy
    rw [getD_set, set_int_copy_length, ih]
    by_cases hit : i = t
    · subst hit
      by_cases hlen : i < dst.length
      · simp [hlen]
      · simp [hlen]
    · have h1 : (i < t ∧ i < dst.length) ↔ (i < t + 1 ∧ i < dst.length) := by
        constructor <;> intro h <;> exact ⟨by omega, h.2⟩
      simp [hit, h1]

theorem takeWhile_zero_stop (L : List Nat)
    (h : (L.takeWhile (fun d => d == 0)).length < L.length) :
    L.getD (L.takeWhile (fun d => d == 0)).length 0 ≠ 0 := by
  induction L with
  | nil => simp at h
  | cons x xs ih =>
    by_cases hx : x = 0
    · have hb : (x == 0) = true := by simpa using hx
      have : (x :: xs).takeWhile (fun d => d == 0) =
          x :: xs.takeWhile (fun d => d == 0) := by
        simp [List.takeWhile, hb]
      rw [this] at h ⊢
      simpa using ih (by simpa using h)
    · have hb : (x == 0) = false := by simpa using hx
      have : (x :: xs).takeWhile (fun d => d == 0) = [] := by
        simp [List.takeWhile, hb]
      rw [this]
      simpa using hx

theorem takeWhile_zero_lt_length (L : List Nat) (hL : L ≠ [])
    (hlast : L.getLast hL ≠ 0) :
    (L.takeWhile (fun d => d == 0)).length < L.length := by
  rcases Nat.lt_or_ge (L.takeWhile (fun d => d == 0)).length L.length with h | h
  · exact h
  · exfalso
    have hle := (List.takeWhile_prefix (l := L) (fun d => d == 0)).length_le
    have heq : (L.takeWhile (fun d => d == 0)).length = L.length := by omega
    have : L.takeWhile (fun d => d == 0) = L :=
      (List.takeWhile_prefix _).eq_of_length heq
    have hmem : ∀ a ∈ L, a = 0 := by
      intro a ha
      rw [← this] at ha
      simpa using List.mem_takeWhile_imp ha
    exact hlast (hmem _ (List.getLast_mem hL))

/-- Claim C8 (counterexample): ingesting 123 at precision 2 neither
fails nor truncates: the model records `sig_digs = 3 > 2 = precision`
(the C writes the scratch and digit buffers out of bounds instead of
truncating low-order digits). -/
theorem c8_set_int_counterexample :
    (bignum_set_int (bignum_init 2) 123).sig_digs = 3 ∧
      (bignum_set_int (bignum_init 2) 123).precision = 2 ∧
      ¬ (bignum_set_int (bignum_init 2) 123).sig_digs ≤
          (bignum_set_int (bignum_init 2) 123).precision := by
  refine ⟨by decide, by decide, by decide⟩

/-- Claim C8 (amended): `bignum_set_int` never signals failure for a
positive integer (the C fails only on allocation) and never truncates:
for every `n > 0` — representable or not — `power` is the digit count of
`n` minus one, `sig_digs` is the digit count minus the number of trailing
zero digits of `n` (so the stored span runs from the MSD through the last
non-zero digit, and `sig_digs` exceeds `precision` whenever `n` needs
more digits than the budget), and every in-range digit cell `i` holds the
`i`-th decimal digit of `n` counted from the MSD. -/
theorem c8_set_int_amended (b : Bignum) (n : Int) (hn : 0 < n) :
    (bignum_set_int b n).power = ((Nat.digits 10 n.toNat).length : Int) - 1 ∧
    (bignum_set_int b n).sig_digs =
      (Nat.digits 10 n.toNat).length -
        ((Nat.digits 10 n.toNat).takeWhile (fun d => d == 0)).length ∧
    (bignum_set_int b n).precision = b.precision ∧
    ((Nat.digits 10 n.toNat).takeWhile (fun d => d == 0)).length <
      (Nat.digits 10 n.toNat).length ∧
    (Nat.digits 10 n.toNat).getD
      ((Nat.digits 10 n.toNat).takeWhile (fun d => d == 0)).length 0 ≠ 0 ∧
    (∀ i, i < (bignum_set_int b n).sig_digs → i < b.digits.length →
      (bignum_set_int b n).digits.getD i 0 =
        (Nat.digits 10 n.toNat).getD ((Nat.digits 10 n.toNat).length - i - 1) 0) := by
  have hnn : n.toNat ≠ 0 := by
    intro h
    omega
  have hnil : Nat.digits 10 n.toNat ≠ [] := Nat.digits_ne_nil_iff_ne_zero.mpr hnn
  have hlt : ((Nat.digits 10 n.toNat).takeWhile (fun d => d == 0)).length <
      (Nat.digits 10 n.toNat).length :=
    takeWhile_zero_lt_length _ hnil (Nat.getLast_digit_ne_zero 10 hnn)
  unfold bignum_set_int
  rw [if_pos hn]
  simp only [set_int_extract_eq_digits]
  refine ⟨by simp, by simp, by simp, hlt, takeWhile_zero_stop _ hlt, ?_⟩
  intro i hi hilen
  rw [set_int_copy_getD, if_pos ⟨hi, hilen⟩]

/-- Witness for the amended C8 at `n = 1200`, precision 5: two stored
digits `1, 2`, `power = 3`, `sig_digs = 2`. -/
theorem c8_set_int_amended_witness :
    (0 : Int) < 1200 ∧
      (bignum_set_int (bignum_init 5) 1200).power =
        ((Nat.digits 10 (1200 : Int).toNat).length : Int) - 1 :=
  ⟨by decide, (c8_set_int_amended (bignum_init 5) 1200 (by decide)).1⟩

theorem zeroPrefix_length (n : Nat) (l : List Nat) :
    (zeroPrefix n l).length = l.length := by
  induction n generalizing l with
  | zero => rfl
  | succ n ih =>
    cases l with
    | nil => rfl
    | cons x xs => simp [zeroPrefix, ih]

theorem zeroPrefix_getD (n : Nat) (l : List Nat) (i : Nat) :
    (zeroPrefix n l).getD i 0 = if i < n ∧ i < l.length then 0 else l.getD i 0 := by
  induction n generalizing l i with
  | zero => simp [zeroPrefix]
  | succ n ih =>
    cases l with
    | nil => simp [zeroPrefix]
    | cons x xs =>
      cases i with
      | zero => simp [zeroPrefix]
      | succ i =>
        simp only [zeroPrefix, List.getD_cons_succ, List.length_cons, ih]
        have hiff : (i < n ∧ i < xs.length) ↔
            (i + 1 < n + 1 ∧ i + 1 < xs.length + 1) := by omega
        rw [if_congr hiff rfl rfl]

theorem copyPrefixLoop_length (src : List Nat) (n : Nat) (dst : List Nat) :
    (copyPrefixLoop src n dst).length = dst.length := by
  induction n with
  | zero => rfl
  | succ t ih => simp [copyPrefixLoop, ih]

theorem copyPrefixLoop_getD (src : List Nat) (n : Nat) (dst : List Nat) (i : Nat) :
    (copyPrefixLoop src n dst).getD i 0 =
      if i < n ∧ i < dst.length then src.getD i 0 else dst.getD i 0 := by
  induction n with
  | zero => simp [copyPrefixLoop]
  | succ t ih =>
    unfold copyPrefixLoop
    rw [getD_set, copyPrefixLoop_length, ih]
    by_cases hit : i = t
    · subst hit
      by_cases hlen : i < dst.length
      · simp [hlen]
      · simp [hlen]
    · have h1 : (i < t ∧ i < dst.length) ↔ (i < t + 1 ∧ i < dst.length) := by
        omega
      simp [hit, h1]

theorem bignum_reset_precision (b : Bignum) :
    (bignum_reset b).precision = b.precision := by
  unfold bignum_reset
  split <;> rfl

theorem bignum_reset_digits_length (b : Bignum) :
    (bignum_reset b).digits.length = b.digits.length := by
  unfold bignum_reset
  split
  · exact zeroPrefix_length _ _
  · rfl

theorem bignum_reset_sig_digs (b : Bignum) : (bignum_reset b).sig_digs = 0 := by
  unfold bignum_reset
  split
  · rfl
  · omega

/-- Claim C5: when both operands are non-zero and the left power exceeds
the right power by more than the result's precision, `bignum_add` (in
either argument order) copies the larger-power operand into the result:
same power, same digit count, and the same stored digits (the digit-count
hypothesis `a.sig_digs ≤ r.precision` makes the copy lossless, and
`r.digits.length = r.precision` says `r`'s digit array really has
`precision` cells, as `bignum_init` allocates). -/
theorem c5_add_overshift (r a b : Bignum)
    (ha : 0 < a.sig_digs) (hb : 0 < b.sig_digs)
    (hshift : (r.precision : Int) < a.power - b.power)
    (hfit : a.sig_digs ≤ r.precision)
    (hrlen : r.digits.length = r.precision) :
    bignum_add r a b = bignum_set (bignum_reset r) a ∧
    bignum_add r b a = bignum_set (bignum_reset r) a ∧
    (bignum_add r a b).power = a.power ∧
    (bignum_add r a b).sig_digs = a.sig_digs ∧
    (∀ i, i < a.sig_digs → (bignum_add r a b).digits.getD i 0 = a.digits.getD i 0) := by
  have hd : 0 < a.power - b.power := by
    have : (0 : Int) ≤ (r.precision : Int) := Int.natCast_nonneg _
    omega
  have h1 : bignum_add r a b = bignum_set (bignum_reset r) a := by
    unfold bignum_add
    rw [if_neg (by omega), if_neg (by omega), if_neg (by omega),
      if_pos ⟨hd, by rw [bignum_reset_precision]; exact hshift⟩]
  have h2 : bignum_add r b a = bignum_set (bignum_reset r) a := by
    unfold bignum_add
    rw [if_neg (by omega), if_neg (by omega), if_neg (by omega),
      if_neg (by rw [bignum_reset_precision]; omega),
      if_pos ⟨hd, by rw [bignum_reset_precision]; exact hshift⟩]
  have hs : (if (bignum_reset r).precision < a.sig_digs then (bignum_reset r).precision
      else a.sig_digs) = a.sig_digs := by
    rw [bignum_reset_precision, if_neg (by omega)]
  have hset_pow : (bignum_set (bignum_reset r) a).power = a.power := by
    unfold bignum_set
    rw [if_pos ha]
  have hset_sig : (bignum_set (bignum_reset r) a).sig_digs = a.sig_digs := by
    unfold bignum_set
    rw [if_pos ha]
    exact hs
  have hset_digits : ∀ i, i < a.sig_digs →
      (bignum_set (bignum_reset r) a).digits.getD i 0 = a.digits.getD i 0 := by
    intro i hi
    unfold bignum_set
    rw [if_pos ha]
    simp only [hs]
    rw [copyPrefixLoop_getD,
      if_pos ⟨hi, by rw [bignum_reset_digits_length, hrlen]; omega⟩]
  exact ⟨h1, h2, by rw [h1]; exact hset_pow, by rw [h1]; exact hset_sig,
    fun i hi => by rw [h1]; exact hset_digits i hi⟩

/-- Witness for C5: precision 3, `a = 10000` (power 4), `b = 1`
(power 0); the power gap 4 exceeds the precision 3. -/
theorem c5_add_overshift_witness :
    bignum_add (bignum_init 3) (bignum_set_int (bignum_init 3) 10000)
        (bignum_set_int (bignum_init 3) 1) =
      bignum_set (bignum_reset (bignum_init 3))
        (bignum_set_int (bignum_init 3) 10000) :=
  (c5_add_overshift (bignum_init 3) (bignum_set_int (bignum_init 3) 10000)
    (bignum_set_int (bignum_init 3) 1) (by decide) (by decide) (by decide)
    (by decide) (by decide)).1

theorem list_ext_getD {α : Type} {l1 l2 : List α} (d : α)
    (hlen : l1.length = l2.length)
    (h : ∀ i, i < l1.length → l1.getD i d = l2.getD i d) : l1 = l2 := by
  apply List.ext_getElem hlen
  intro i h1 h2
  have := h i h1
  rwa [List.getD_eq_getElem l1 d h1, List.getD_eq_getElem l2 d h2] at this

theorem scanZerosDown_of_ne (l : List Nat) (i : Nat) (h : l.getD i 0 ≠ 0) :
    scanZerosDown l i = 0 := by
  cases i with
  | zero =>
    unfold scanZerosDown
    rw [if_neg h]
  | succ i =>
    unfold scanZerosDown
    rw [if_neg h]

theorem subtractDenom133 (dd : List Nat) (ni : Nat) (tw : List Int) :
    subtractDenom dd 1 ni 1 tw =
      if tw.getD (1 + ni) 0 - (dd.getD 0 0 : Int) < 0 then
        (tw.set (1 + ni) (tw.getD (1 + ni) 0 - (dd.getD 0 0 : Int) + 10)).set
          (1 + ni - 1) (tw.getD (1 + ni - 1) 0 - 1)
      else tw.set (1 + ni) (tw.getD (1 + ni) 0 - (dd.getD 0 0 : Int)) := rfl

theorem denomBiggerCmp133 (dd : List Nat) (tw : List Int) (base : Nat) :
    denomBiggerCmp dd 1 tw base 1 =
      if (dd.getD 0 0 : Int) > tw.getD base 0 then true
      else if (dd.getD 0 0 : Int) < tw.getD base 0 then false
      else false := rfl

theorem divSubLoop_succ (dd : List Nat) (dsig ni fuel : Nat) (tw : List Int)
    (digit : Nat) :
    divSubLoop dd dsig ni (fuel + 1) tw digit =
      if (if 0 < tw.getD ni 0 then false else denomBiggerCmp dd dsig tw (ni + 1) dsig)
      then (tw, digit)
      else divSubLoop dd dsig ni fuel (subtractDenom dd dsig ni dsig tw) (digit + 1) :=
  rfl

/-- One full digit step of the `1/3` division: starting from a scratchpad
that is all zeros except a single 1 at the window-overflow cell `ni`, the
subtraction loop subtracts the denominator digit 3 three times, produces
the digit 3, and leaves the scratchpad all zeros except a single 1 at
cell `ni + 1`. -/
theorem divStep133 (N : Nat) (dd : List Nat) (hdd : dd.getD 0 0 = 3) (ni : Nat)
    (h2 : ni + 1 < N) :
    divSubLoop dd 1 ni 12 ((List.replicate N (0:Int)).set ni 1) 0 =
      ((List.replicate N (0:Int)).set (ni + 1) 1, 3) := by
  have hniN : ni < N := by omega
  have hni1N : ni + 1 < N := h2
  have hcomm : (1 + ni : Nat) = ni + 1 := Nat.add_comm 1 ni
  have hdd' : (dd.getD 0 0 : Int) = 3 := by rw [hdd]; norm_num
  -- cell values of the initial store
  have g0ni : ((List.replicate N (0:Int)).set ni 1).getD ni 0 = 1 := by
    rw [getD_set]
    simp [hniN]
  have g0ni1 : ((List.replicate N (0:Int)).set ni 1).getD (ni + 1) 0 = 0 := by
    rw [getD_set, if_neg (by omega), getD_replicate, if_pos hni1N]
  -- step 1: overflow cell is positive, borrow subtraction, digit 1
  rw [show (12 : Nat) = 11 + 1 from rfl, divSubLoop_succ, g0ni,
    if_pos (show (0:Int) < 1 by norm_num), if_neg Bool.false_ne_true,
    subtractDenom133, hdd', hcomm, Nat.add_sub_cancel, g0ni1, g0ni]
  norm_num
  -- the store after step 1
  have g1ni : ((((List.replicate N (0:Int)).set ni 1).set (ni + 1) 7).set
      ni 0).getD ni 0 = 0 := by
    rw [getD_set]
    simp [hniN]
  have g1ni1 : ((((List.replicate N (0:Int)).set ni 1).set (ni + 1) 7).set
      ni 0).getD (ni + 1) 0 = 7 := by
    rw [getD_set, if_neg (by omega), getD_set]
    simp [hni1N]
  -- step 2: compare 3 < 7, subtract, digit 2
  rw [show (11 : Nat) = 10 + 1 from rfl, divSubLoop_succ, g1ni,
    if_neg (show ¬ (0:Int) < 0 by norm_num), denomBiggerCmp133, hdd', g1ni1,
    if_neg (show ¬ (3:Int) > 7 by norm_num),
    if_pos (show (3:Int) < 7 by norm_num), if_neg Bool.false_ne_true,
    subtractDenom133, hdd', hcomm, Nat.add_sub_cancel, g1ni1]
  norm_num
  -- the store after step 2
  have g2ni : (((((List.replicate N (0:Int)).set ni 1).set (ni + 1) 7).set
      ni 0).set (ni + 1) 4).getD ni 0 = 0 := by
    rw [getD_set, if_neg (by omega)]
    exact g1ni
  have g2ni1 : (((((List.replicate N (0:Int)).set ni 1).set (ni + 1) 7).set
      ni 0).set (ni + 1) 4).getD (ni + 1) 0 = 4 := by
    rw [getD_set]
    simp [hni1N]
  -- step 3: compare 3 < 4, subtract, digit 3
  rw [show (10 : Nat) = 9 + 1 from rfl, divSubLoop_succ, g2ni,
    if_neg (show ¬ (0:Int) < 0 by norm_num), denomBiggerCmp133, hdd', g2ni1,
    if_neg (show ¬ (3:Int) > 4 by norm_num),
    if_pos (show (3:Int) < 4 by norm_num), if_neg Bool.false_ne_true,
    subtractDenom133, hdd', hcomm, Nat.add_sub_cancel, g2ni1]
  norm_num
  -- the store after step 3 (the two consecutive writes to cell ni+1 merge)
  have g3ni : (((((List.replicate N (0:Int)).set ni 1).set (ni + 1) 7).set
      ni 0).set (ni + 1) 1).getD ni 0 = 0 := by
    rw [getD_set, if_neg (by omega)]
    exact g1ni
  have g3ni1 : (((((List.replicate N (0:Int)).set ni 1).set (ni + 1) 7).set
      ni 0).set (ni + 1) 1).getD (ni + 1) 0 = 1 := by
    rw [getD_set]
    simp [hni1N]
  -- step 4: compare 3 > 1, stop with digit 3
  rw [show (9 : Nat) = 8 + 1 from rfl, divSubLoop_succ, g3ni,
    if_neg (show ¬ (0:Int) < 0 by norm_num), denomBiggerCmp133, hdd', g3ni1,
    if_pos (show (3:Int) > 1 by norm_num), if_pos rfl]
  -- the final store is all zeros except cell ni+1
  refine Prod.ext ?_ (by norm_num)
  show (((((List.replicate N (0:Int)).set ni 1).set (ni + 1) 7).set
      ni 0).set (ni + 1) 1) =
    (List.replicate N (0:Int)).set (ni + 1) 1
  apply list_ext_getD 0
  · simp
  · intro i hi
    simp only [List.length_set, List.length_replicate] at hi
    simp only [getD_set, List.length_set, List.length_replicate, getD_replicate]
    split_ifs <;> omega

theorem divLoop_succ (dd : List Nat) (dsig numsig precision m : Nat) (st : DivState) :
    divLoop dd dsig numsig precision (m + 1) st =
      if st.nonzero then
        divLoop dd dsig numsig precision m
          { tw := (divSubLoop dd dsig st.ni 12 st.tw 0).1,
            sigdigctr := st.sigdigctr + 1, ni := st.ni + 1,
            digitsAcc :=
              if st.sigdigctr < precision then
                st.digitsAcc.set st.sigdigctr (divSubLoop dd dsig st.ni 12 st.tw 0).2
              else st.digitsAcc,
            nonzero :=
              if numsig < st.sigdigctr then
                if zeroRunUp (divSubLoop dd dsig st.ni 12 st.tw 0).1 st.ni (dsig + 1) =
                    dsig + 1 then false
                else st.nonzero
              else st.nonzero }
      else st := rfl

theorem replicate_append_set_three (p ctr : Nat) (h : ctr < p) :
    (List.replicate ctr 3 ++ List.replicate (p - ctr) (0:Nat)).set ctr 3 =
      List.replicate (ctr + 1) 3 ++ List.replicate (p - (ctr + 1)) 0 := by
  apply list_ext_getD 0
  · simp
    omega
  · intro i hi
    simp only [List.length_set, List.length_append, List.length_replicate] at hi
    rw [getD_set]
    by_cases h1 : i < ctr
    · rw [if_neg (by omega),
        List.getD_append _ _ _ _ (by simp <;> omega),
        List.getD_append _ _ _ _ (by simp <;> omega),
        getD_replicate, getD_replicate, if_pos h1, if_pos (by omega)]
    · by_cases h2 : i = ctr
      · subst h2
        rw [if_pos ⟨rfl, by simp <;> omega⟩,
          List.getD_append _ _ _ _ (by simp <;> omega), getD_replicate,
          if_pos (by omega)]
      · rw [if_neg (by omega),
          List.getD_append_right _ _ _ _ (by simp <;> omega),
          List.getD_append_right _ _ _ _ (by simp <;> omega),
          getD_replicate, getD_replicate, List.length_replicate,
          List.length_replicate, if_pos (by omega), if_pos (by omega)]

/-- The main division loop for `1/3`: starting at digit counter `ctr`
with the scratchpad holding a single 1 at cell `ctr + 1` and the first
`ctr` result digits already 3, running the remaining `p - ctr`
iterations yields all `p` digits equal to 3 with the early-termination
flag still set. -/
theorem divLoop133 (p : Nat) (dd : List Nat) (hdd : dd.getD 0 0 = 3) :
    ∀ m ctr, ctr + m = p →
      divLoop dd 1 1 p m
        { tw := (List.replicate (2 * p + 2) (0:Int)).set (ctr + 1) 1,
          sigdigctr := ctr, ni := ctr + 1,
          digitsAcc := List.replicate ctr 3 ++ List.replicate (p - ctr) 0,
          nonzero := true } =
      { tw := (List.replicate (2 * p + 2) (0:Int)).set (p + 1) 1,
        sigdigctr := p, ni := p + 1,
        digitsAcc := List.replicate p 3, nonzero := true } := by
  intro m
  induction m with
  | zero =>
    intro ctr hctr
    have hcp : ctr = p := by omega
    subst hcp
    show divLoop dd 1 1 ctr 0 _ = _
    unfold divLoop
    rw [Nat.sub_self]
    simp
  | succ m ih =>
    intro ctr hctr
    have hctrp : ctr < p := by omega
    rw [divLoop_succ]
    simp only [if_pos trivial]
    rw [divStep133 (2 * p + 2) dd hdd (ctr + 1) (by omega)]
    have hz : zeroRunUp ((List.replicate (2 * p + 2) (0:Int)).set (ctr + 1 + 1) 1)
        (ctr + 1) (1 + 1) = 1 := by
      unfold zeroRunUp
      rw [if_pos (by
        rw [getD_set, if_neg (by omega), getD_replicate, if_pos (by omega)]
        norm_num)]
      unfold zeroRunUp
      rw [if_neg (by
        rw [getD_set, if_pos ⟨rfl, by simp; omega⟩]
        norm_num)]
    simp only [hz]
    have hnz : (if 1 < ctr then if (1:Nat) = 1 + 1 then false else true
        else true) = true := by
      by_cases h : 1 < ctr <;> simp [h]
    rw [hnz, if_pos hctrp, replicate_append_set_three p ctr hctrp]
    exact ih (ctr + 1) (by omega)

theorem digitsString_replicate_three (p : Nat) :
    digitsString (List.replicate p 3) 0 p = String.join (List.replicate p "3") := by
  unfold digitsString
  congr 1
  rw [List.eq_replicate_iff]
  constructor
  · simp
  · intro b hb
    obtain ⟨i, hi, rfl⟩ := List.mem_map.mp hb
    have hip : i < p := List.mem_range.mp hi
    rw [getD_replicate, if_pos (by omega)]
    rfl

theorem print_all_threes (p : Nat) (hp0 : 0 < p) :
    bignum_print_string ⟨-1, p, List.replicate p 3, p⟩ 0 =
      "0." ++ String.join (List.replicate p "3") := by
  unfold bignum_print_string
  rw [if_neg (show ¬ (Bignum.sig_digs ⟨-1, p, List.replicate p 3, p⟩ = 0) from
    by simp <;> omega)]
  dsimp only
  rw [if_neg (show ¬ ((0:Int) < 0 ∧ (0:Int) < (p:Int)) from by norm_num),
    if_pos (show (-1 : Int) < 0 by norm_num),
    if_neg (show ¬ ((0:Int) < -1 ∧ (p : Int) < -1 + 1) from by
      intro h
      exact absurd h.1 (by norm_num))]
  have h1 : ((-(-1 : Int) - 1)).toNat = 0 := by norm_num
  rw [h1, digitsString_replicate_three]
  show "0." ++ zerosString 0 ++ String.join (List.replicate p "3") ++ "" = _
  rw [show zerosString 0 = "" from rfl]
  simp

/-- Claim C3: for every precision `p ≥ 10` (in fact `p ≥ 1`), dividing
the bignum 1 by the bignum 3 at precision `p` succeeds and yields
`power = -1`, `sig_digs = p`, digit store all 3s, and the printed string
`0.` followed by exactly `p` threes. -/
theorem c3_divide_one_third (p : Nat) (hp : 10 ≤ p) :
    ∃ r, bignum_divide (bignum_init p) (bignum_set_int (bignum_init p) 1)
          (bignum_set_int (bignum_init p) 3) = some r ∧
        r.power = -1 ∧ r.sig_digs = p ∧
        bignum_print_string r 0 = "0." ++ String.join (List.replicate p "3") := by
  have hp0 : 0 < p := by omega
  have hA : bignum_set_int (bignum_init p) 1 =
      ⟨0, 1, (List.replicate p 0).set 0 1, p⟩ := rfl
  have hB : bignum_set_int (bignum_init p) 3 =
      ⟨0, 1, (List.replicate p 0).set 0 3, p⟩ := rfl
  have hnd : ((List.replicate p 0).set 0 1).getD 0 0 = 1 := by
    rw [getD_set]
    simp [hp0]
  have hdd : ((List.replicate p 0).set 0 3).getD 0 0 = 3 := by
    rw [getD_set]
    simp [hp0]
  refine ⟨⟨-1, p, List.replicate p 3, p⟩, ?_, rfl, rfl, print_all_threes p hp0⟩
  rw [hA, hB]
  unfold bignum_divide
  rw [if_neg (by simp), if_neg (by simp)]
  simp only [bignum_init]
  rw [show bignum_reset ⟨0, 0, List.replicate p 0, p⟩ =
    (⟨0, 0, List.replicate p 0, p⟩ : Bignum) from rfl]
  dsimp only
  -- the numerator copy leaves a single 1 at scratch cell 1
  have h_tw0 : divInitLoop ((List.replicate p 0).set 0 1) 1
      (List.replicate (2 * p + 2) (0:Int)) =
      (List.replicate (2 * p + 2) (0:Int)).set 1 1 := by
    unfold divInitLoop divInitLoop
    rw [hnd]
    norm_num
  simp only [h_tw0]
  -- the initial comparison: denominator 3 beats leading window 1
  have h_shift : denomBiggerCmp ((List.replicate p 0).set 0 3) 1
      ((List.replicate (2 * p + 2) (0:Int)).set 1 1) 1 1 = true := by
    rw [denomBiggerCmp133, hdd]
    have : ((List.replicate (2 * p + 2) (0:Int)).set 1 1).getD 1 0 = 1 := by
      rw [getD_set]
      simp
    rw [this, if_pos (by norm_num)]
  simp only [h_shift, if_true]
  -- the main loop
  have h_main := divLoop133 p ((List.replicate p 0).set 0 3) hdd p 0 (by omega)
  simp only [Nat.sub_zero, Nat.zero_add, List.replicate_zero, List.nil_append] at h_main
  rw [h_main]
  -- trailing-zero scan finds the digit 3 immediately
  have h_zc : scanZerosDown (List.replicate p 3) (p - 1) = 0 := by
    apply scanZerosDown_of_ne
    rw [getD_replicate, if_pos (by omega)]
    norm_num
  simp only [h_zc]
  norm_num

/-- Witness for C3 at the boundary precision `p = 10`. -/
theorem c3_divide_one_third_witness :
    (10 ≤ 10) ∧
      (∃ r, bignum_divide (bignum_init 10) (bignum_set_int (bignum_init 10) 1)
            (bignum_set_int (bignum_init 10) 3) = some r ∧
          r.power = -1 ∧ r.sig_digs = 10 ∧
          bignum_print_string r 0 = "0." ++ String.join (List.replicate 10 "3")) :=
  ⟨by decide, c3_divide_one_third 10 (by decide)⟩

theorem bignum_reset_digits_zero (b : Bignum) (hb : ZeroBeyond b) :
    ∀ i, (bignum_reset b).digits.getD i 0 = 0 := by
  intro i
  unfold bignum_reset
  split
  · rw [zeroPrefix_getD]
    split
    · rfl
    · rename_i h
      by_cases hlen : i < b.digits.length
      · exact hb i (by omega)
      · exact List.getD_eq_default _ _ (by omega)
  · exact hb i (by omega)

theorem bignum_set_zero_dst (newnum src : Bignum)
    (h : ∀ i, newnum.digits.getD i 0 = 0) :
    ZeroBeyond (bignum_set newnum src) := by
  unfold bignum_set
  split
  · intro i hi
    dsimp only at hi ⊢
    rw [copyPrefixLoop_getD]
    rw [if_neg (by omega)]
    exact h i
  · intro i _
    exact bignum_reset_digits_zero newnum (fun j _ => h j) i

theorem bignum_set_int_zero_dst (numval : Bignum) (n : Int)
    (h : ∀ i, numval.digits.getD i 0 = 0) :
    ZeroBeyond (bignum_set_int numval n) := by
  unfold bignum_set_int
  split
  · intro i hi
    dsimp only at hi ⊢
    rw [set_int_copy_getD]
    rw [if_neg (by omega)]
    exact h i
  · intro i _
    exact bignum_reset_digits_zero numval (fun j _ => h j) i

theorem addCopyLoop_length (smalld : List Nat) (d : Nat) :
    ∀ n j dst, (addCopyLoop smalld d n j dst).length = dst.length := by
  intro n
  induction n with
  | zero => intro j dst; rfl
  | succ n ih =>
    intro j dst
    unfold addCopyLoop
    rw [ih]
    split <;> simp

theorem addCopyLoop_getD_gt (smalld : List Nat) (d : Nat) :
    ∀ n j dst i, j < i →
      (addCopyLoop smalld d n j dst).getD i 0 = dst.getD i 0 := by
  intro n
  induction n with
  | zero => intro j dst i _; rfl
  | succ n ih =>
    intro j dst i hji
    unfold addCopyLoop
    rw [ih (j - 1) _ i (by omega)]
    split
    · rw [getD_set, if_neg (by omega)]
    · rfl

theorem addLoop_length (big : List Nat) :
    ∀ k f c tz zc, (addLoop big k f c tz zc).1.length = f.length := by
  intro k
  induction k with
  | zero => intro f c tz zc; rfl
  | succ k ih =>
    intro f c tz zc
    unfold addLoop
    rw [ih]
    simp

theorem addLoop_getD_beyond (big : List Nat) :
    ∀ k f c tz zc i, k ≤ i →
      (addLoop big k f c tz zc).1.getD i 0 = f.getD i 0 := by
  intro k
  induction k with
  | zero => intro f c tz zc i _; rfl
  | succ k ih =>
    intro f c tz zc i hi
    unfold addLoop
    rw [ih _ _ _ _ i (by omega), getD_set, if_neg (by omega)]

theorem addShiftLoop_getD_gt :
    ∀ n sdc (dst : List Nat) i, sdc + 1 < i →
      (addShiftLoop n sdc dst).getD i 0 = dst.getD i 0 := by
  intro n
  induction n with
  | zero => intro sdc dst i _; rfl
  | succ n ih =>
    intro sdc dst i hi
    unfold addShiftLoop
    rw [ih (sdc - 1) _ i (by omega), getD_set, if_neg (by omega)]

/-- The trailing-zero bookkeeping of the main addition loop: starting
with the invariant that `zc` counts a run of zero cells at the top of
the processed region, the loop ends with `zc ≤ s` and the cells
`s - zc, …, s - 1` of the final store all zero. -/
theorem addLoop_trailing (big : List Nat) (s : Nat) :
    ∀ k (f : List Nat) (c : Nat) (tz : Bool) (zc : Nat), k ≤ s →
      (tz = true → zc = s - k ∧ ∀ j, k ≤ j → j < s → f.getD j 0 = 0) →
      (tz = false → zc ≤ s - k ∧ ∀ j, s - zc ≤ j → j < s → f.getD j 0 = 0) →
      (addLoop big k f c tz zc).2.2.2 ≤ s ∧
        (∀ j, s - (addLoop big k f c tz zc).2.2.2 ≤ j → j < s →
          (addLoop big k f c tz zc).1.getD j 0 = 0) := by
  intro k
  induction k with
  | zero =>
    intro f c tz zc _ htz hftz
    show zc ≤ s ∧ ∀ j, s - zc ≤ j → j < s → f.getD j 0 = 0
    cases tz with
    | true =>
      obtain ⟨hzc, hreg⟩ := htz rfl
      exact ⟨by omega, fun j h1 h2 => hreg j (by omega) h2⟩
    | false =>
      obtain ⟨hzc, hreg⟩ := hftz rfl
      exact ⟨by omega, fun j h1 h2 => hreg j h1 h2⟩
  | succ k ih =>
    intro f c tz zc hk htz hftz
    show (addLoop big (k + 1) f c tz zc).2.2.2 ≤ s ∧ _
    unfold addLoop
    set v := f.getD k 0 + big.getD k 0 + c with hv
    set v2 := if 10 ≤ v then v - 10 else v with hv2
    set c2 := if 10 ≤ v then 1 else 0 with hc2
    set tz2 := tz && (v2 == 0) with htz2
    set zc2 := if tz2 then zc + 1 else zc with hzc2
    apply ih (f.set k v2) c2 tz2 zc2 (by omega)
    · intro h2
      have htzt : tz = true := by
        cases tz
        · simp [htz2] at h2
        · rfl
      have hv20 : v2 = 0 := by
        rw [htzt] at htz2
        simp at htz2
        rw [htz2] at h2
        simpa using h2
      obtain ⟨hzc, hreg⟩ := htz htzt
      constructor
      · rw [hzc2, if_pos h2, hzc]
        omega
      · intro j hj1 hj2
        rw [getD_set]
        by_cases hjk : j = k
        · subst hjk
          split
          · exact hv20
          · by_cases hlen : j < f.length
            · omega
            · exact List.getD_eq_default _ _ (by omega)
        · rw [if_neg (by omega)]
          exact hreg j (by omega) hj2
    · intro h2
      cases tz with
      | false =>
        obtain ⟨hzc, hreg⟩ := hftz rfl
        have hz2 : zc2 = zc := by
          rw [hzc2, if_neg (by simp [h2])]
        rw [hz2]
        refine ⟨by omega, fun j hj1 hj2 => ?_⟩
        rw [getD_set, if_neg (by omega)]
        exact hreg j hj1 hj2
      | true =>
        obtain ⟨hzc, hreg⟩ := htz rfl
        have hv2ne : ¬ (v2 = 0) := by
          intro h0
          rw [htz2] at h2
          simp [h0] at h2
        have hz2 : zc2 = zc := by
          rw [hzc2, if_neg (by simp [h2])]
        rw [hz2]
        refine ⟨by omega, fun j hj1 hj2 => ?_⟩
        rw [getD_set, if_neg (by omega)]
        exact hreg j (by omega) hj2

/-- The finishing step of addition leaves only zero digit cells at or
beyond the recorded digit count, given the loop invariants on its input
store. -/
theorem addFinish_ZeroBeyond (r0 : Bignum) (pw : Int) (s : Nat)
    (res : List Nat × Nat × Bool × Nat)
    (hzc : res.2.2.2 ≤ s)
    (hreg : ∀ j, s - res.2.2.2 ≤ j → j < s → res.1.getD j 0 = 0)
    (hbeyond : ∀ j, s ≤ j → res.1.getD j 0 = 0) :
    ZeroBeyond (addFinish r0 pw s res) := by
  unfold addFinish
  dsimp only
  split
  · -- final carry: the store is shifted up by one and the carry placed at cell 0
    intro i hi
    have hi1 : s - res.2.2.2 + 1 ≤ i := hi
    set t := if s - res.2.2.2 = r0.precision then s - res.2.2.2 - 1
      else s - res.2.2.2 with ht
    have ht_le : t ≤ s - res.2.2.2 := by
      rw [ht]
      split <;> omega
    show ((addShiftLoop t (t - 1) res.1).set 0 res.2.1).getD i 0 = 0
    rw [getD_set, if_neg (by omega)]
    by_cases ht0 : t = 0
    · rw [ht0]
      show res.1.getD i 0 = 0
      by_cases his : i < s
      · exact hreg i (by omega) his
      · exact hbeyond i (by omega)
    · rw [addShiftLoop_getD_gt t (t - 1) res.1 i (by omega)]
      by_cases his : i < s
      · exact hreg i (by omega) his
      · exact hbeyond i (by omega)
  · -- no carry
    intro i hi
    have hi1 : s - res.2.2.2 ≤ i := hi
    show res.1.getD i 0 = 0
    by_cases his : i < s
    · exact hreg i (by omega) his
    · exact hbeyond i (by omega)

/-- The main path of `bignum_add` leaves only zero digit cells at or
beyond the recorded digit count, provided the (already reset) result
store is all zeros. -/
theorem bignum_add_core_ZeroBeyond (r0 bigger smaller : Bignum)
    (hr0 : ∀ i, r0.digits.getD i 0 = 0) :
    ZeroBeyond (bignum_add_core r0 bigger smaller) := by
  unfold bignum_add_core
  set d := (bigger.power - smaller.power).toNat with hd
  set startdigit0 := smaller.sig_digs + d with hsd0
  set startdigitcopy :=
    if r0.precision < startdigit0 then r0.precision - d else startdigit0 with hsdc
  set transfertotal :=
    if r0.precision < startdigit0 then r0.precision - d else smaller.sig_digs with htt
  set f1 := addCopyLoop smaller.digits d transfertotal (startdigitcopy - 1) r0.digits
    with hf1
  set s := if startdigitcopy < bigger.sig_digs then bigger.sig_digs else startdigitcopy
    with hs
  have hsdc_le_s : startdigitcopy ≤ s := by
    rw [hs]
    split <;> omega
  -- the copy loop writes only cells below `startdigitcopy`
  have hf1_beyond : ∀ j, s ≤ j → f1.getD j 0 = 0 := by
    intro j hj
    rw [hf1]
    by_cases h0 : startdigitcopy = 0
    · have htt0 : transfertotal = 0 := by
        rw [htt]
        rw [h0] at hsdc
        split at hsdc <;> split <;> omega
      rw [htt0]
      exact hr0 j
    · rw [addCopyLoop_getD_gt smaller.digits d transfertotal (startdigitcopy - 1)
        r0.digits j (by omega)]
      exact hr0 j
  have hloop := addLoop_trailing bigger.digits s s f1 0 true 0 le_rfl
    (fun _ => ⟨by omega, fun j h1 h2 => by omega⟩)
    (fun h => by cases h)
  obtain ⟨hzc_le, hreg⟩ := hloop
  have hbeyond : ∀ j, s ≤ j →
      (addLoop bigger.digits s f1 0 true 0).1.getD j 0 = 0 := by
    intro j hj
    rw [addLoop_getD_beyond bigger.digits s f1 0 true 0 j hj]
    exact hf1_beyond j hj
  show ZeroBeyond (addFinish r0 bigger.power s (addLoop bigger.digits s f1 0 true 0))
  exact addFinish_ZeroBeyond r0 bigger.power s (addLoop bigger.digits s f1 0 true 0)
    hzc_le hreg hbeyond

/-- `bignum_add` preserves the zeros-beyond-`sig_digs` invariant of its
result operand (no hypothesis on the input operands is needed: the loop
itself re-derives the trailing zeros it removes from `sig_digs`). -/
theorem bignum_add_ZeroBeyond (r a b : Bignum) (hr : ZeroBeyond r) :
    ZeroBeyond (bignum_add r a b) := by
  have hr0 : ∀ i, (bignum_reset r).digits.getD i 0 = 0 :=
    bignum_reset_digits_zero r hr
  unfold bignum_add
  dsimp only
  split
  · exact bignum_set_zero_dst _ _ hr0
  · split
    · exact bignum_set_zero_dst _ _ hr0
    · split
      · intro i _
        exact hr0 i
      · split
        · exact bignum_set_zero_dst _ _ hr0
        · split
          · exact bignum_set_zero_dst _ _ hr0
          · split
            · exact bignum_add_core_ZeroBeyond _ _ _ hr0
            · exact bignum_add_core_ZeroBeyond _ _ _ hr0

theorem bignum_add_int_ZeroBeyond (r a : Bignum) (n : Int) (hr : ZeroBeyond r) :
    ZeroBeyond (bignum_add_int r a n) := by
  have hr0 : ∀ i, (bignum_reset r).digits.getD i 0 = 0 :=
    bignum_reset_digits_zero r hr
  have hr0zb : ZeroBeyond (bignum_reset r) := fun i _ => hr0 i
  unfold bignum_add_int
  dsimp only
  split
  · exact bignum_set_zero_dst _ _ hr0
  · split
    · exact bignum_set_int_zero_dst _ _ hr0
    · split
      · intro i _
        exact hr0 i
      · exact bignum_add_ZeroBeyond _ _ _ hr0zb

theorem multCopyLoop_getD_ge (tw : List Nat) (tempstart : Nat) :
    ∀ n dst i, n ≤ i → (multCopyLoop tw tempstart n dst).getD i 0 = dst.getD i 0 := by
  intro n
  induction n with
  | zero => intro dst i _; rfl
  | succ n ih =>
    intro dst i hi
    unfold multCopyLoop
    rw [getD_set, if_neg (by omega), ih dst i (by omega)]

theorem bignum_mult_ZeroBeyond (r a b : Bignum) (hr : ZeroBeyond r) :
    ZeroBeyond (bignum_mult r a b) := by
  have hr0 : ∀ i, (bignum_reset r).digits.getD i 0 = 0 :=
    bignum_reset_digits_zero r hr
  unfold bignum_mult
  dsimp only
  split
  · intro i _
    exact hr0 i
  · intro i hi
    dsimp only at hi ⊢
    rw [multCopyLoop_getD_ge _ _ _ _ i (by omega)]
    exact hr0 i

theorem bignum_mult_int_ZeroBeyond (r a : Bignum) (n : Int) (hr : ZeroBeyond r) :
    ZeroBeyond (bignum_mult_int r a n) := by
  have hr0 : ∀ i, (bignum_reset r).digits.getD i 0 = 0 :=
    bignum_reset_digits_zero r hr
  have hr0zb : ZeroBeyond (bignum_reset r) := fun i _ => hr0 i
  unfold bignum_mult_int
  dsimp only
  split
  · intro i _
    exact hr0 i
  · exact bignum_mult_ZeroBeyond _ _ _ hr0zb

theorem divLoop_ctr_mono (dd : List Nat) (dsig numsig precision : Nat) :
    ∀ m st, st.sigdigctr ≤ (divLoop dd dsig numsig precision m st).sigdigctr := by
  intro m
  induction m with
  | zero => intro st; exact le_rfl
  | succ m ih =>
    intro st
    rw [divLoop_succ]
    split
    · refine le_trans ?_ (ih _)
      show st.sigdigctr ≤ st.sigdigctr + 1
      omega
    · exact le_rfl

theorem divLoop_digits_ge (dd : List Nat) (dsig numsig precision : Nat) :
    ∀ m st j, (divLoop dd dsig numsig precision m st).sigdigctr ≤ j →
      (divLoop dd dsig numsig precision m st).digitsAcc.getD j 0 =
        st.digitsAcc.getD j 0 := by
  intro m
  induction m with
  | zero => intro st j _; rfl
  | succ m ih =>
    intro st j hj
    rw [divLoop_succ] at hj ⊢
    by_cases hnz : st.nonzero = true
    · rw [if_pos hnz] at hj ⊢
      set st2 : DivState :=
        { tw := (divSubLoop dd dsig st.ni 12 st.tw 0).1,
          sigdigctr := st.sigdigctr + 1, ni := st.ni + 1,
          digitsAcc :=
            if st.sigdigctr < precision then
              st.digitsAcc.set st.sigdigctr (divSubLoop dd dsig st.ni 12 st.tw 0).2
            else st.digitsAcc,
          nonzero :=
            if numsig < st.sigdigctr then
              if zeroRunUp (divSubLoop dd dsig st.ni 12 st.tw 0).1 st.ni (dsig + 1) =
                  dsig + 1 then false
              else st.nonzero
            else st.nonzero } with hst2
      rw [ih st2 j hj]
      have hctr2 : st.sigdigctr + 1 ≤ (divLoop dd dsig numsig precision m st2).sigdigctr :=
        divLoop_ctr_mono dd dsig numsig precision m st2
      have hstj : st.sigdigctr < j := by omega
      show (if st.sigdigctr < precision then
          st.digitsAcc.set st.sigdigctr (divSubLoop dd dsig st.ni 12 st.tw 0).2
        else st.digitsAcc).getD j 0 = st.digitsAcc.getD j 0
      split
      · rw [getD_set, if_neg (by omega)]
      · rfl
    · rw [if_neg hnz] at hj ⊢

/-- The trailing-zero scan: `scanZerosDown l i = z` means the `z` cells
`i+1-z, …, i` are all zero. -/
theorem scanZerosDown_region (l : List Nat) :
    ∀ i j, i + 1 - scanZerosDown l i ≤ j → j ≤ i → l.getD j 0 = 0 := by
  intro i
  induction i with
  | zero =>
    intro j h1 h2
    unfold scanZerosDown at h1
    split at h1
    · rename_i h
      have : j = 0 := by omega
      rw [this]
      exact h
    · omega
  | succ i ih =>
    intro j h1 h2
    unfold scanZerosDown at h1
    split at h1
    · rename_i h
      by_cases hj : j = i + 1
      · rw [hj]
        exact h
      · exact ih j (by omega) (by omega)
    · omega

/-- The result store of the full division loop is zero at and beyond the
final (trailing-zero-normalized) digit count, for any all-zero initial
store. -/
theorem divLoop_final_ZeroBeyond (dd : List Nat) (dsig numsig precision : Nat)
    (st0 : DivState) (h0 : ∀ i, st0.digitsAcc.getD i 0 = 0) :
    ∀ i, (divLoop dd dsig numsig precision precision st0).sigdigctr -
        scanZerosDown (divLoop dd dsig numsig precision precision st0).digitsAcc
          ((divLoop dd dsig numsig precision precision st0).sigdigctr - 1) ≤ i →
      (divLoop dd dsig numsig precision precision st0).digitsAcc.getD i 0 = 0 := by
  intro i hi
  by_cases hctr : (divLoop dd dsig numsig precision precision st0).sigdigctr ≤ i
  · rw [divLoop_digits_ge _ _ _ _ _ _ i hctr]
    exact h0 i
  · exact scanZerosDown_region _
      ((divLoop dd dsig numsig precision precision st0).sigdigctr - 1) i
      (by omega) (by omega)

theorem bignum_divide_ZeroBeyond (r a b out : Bignum) (hr : ZeroBeyond r)
    (hout : bignum_divide r a b = some out) : ZeroBeyond out := by
  have hr0 : ∀ i, (bignum_reset r).digits.getD i 0 = 0 :=
    bignum_reset_digits_zero r hr
  unfold bignum_divide at hout
  split at hout
  · cases hout
  · split at hout
    · cases hout
      intro i _
      exact hr0 i
    · cases hout
      intro i hi
      exact divLoop_final_ZeroBeyond _ _ _ _ _ (fun j => hr0 j) i hi

theorem bignum_divide_int_ZeroBeyond (r a : Bignum) (n : Int) (out : Bignum)
    (hr : ZeroBeyond r) (hout : bignum_divide_int r a n = some out) :
    ZeroBeyond out := by
  have hr0 : ∀ i, (bignum_reset r).digits.getD i 0 = 0 :=
    bignum_reset_digits_zero r hr
  have hr0zb : ZeroBeyond (bignum_reset r) := fun i _ => hr0 i
  unfold bignum_divide_int at hout
  split at hout
  · cases hout
  · split at hout
    · cases hout
      intro i _
      exact hr0 i
    · exact bignum_divide_ZeroBeyond _ _ _ _ hr0zb hout

theorem bignum_int_divide_ZeroBeyond (r : Bignum) (n : Int) (b out : Bignum)
    (hr : ZeroBeyond r) (hout : bignum_int_divide r n b = some out) :
    ZeroBeyond out := by
  have hr0 : ∀ i, (bignum_reset r).digits.getD i 0 = 0 :=
    bignum_reset_digits_zero r hr
  have hr0zb : ZeroBeyond (bignum_reset r) := fun i _ => hr0 i
  unfold bignum_int_divide at hout
  split at hout
  · cases hout
  · split at hout
    · cases hout
      intro i _
      exact hr0 i
    · exact bignum_divide_ZeroBeyond _ _ _ _ hr0zb hout

/-- Claim C10 (counterexample): `bignum_set_int` does not preserve the
zeros-beyond-`sig_digs` invariant.  A 5-cell bignum holding 12345
satisfies the invariant (every cell is significant), but writing 12 into
it afterwards only overwrites the first two cells and records
`sig_digs = 2`, leaving the stale digit 3 in cell 2. -/
theorem c10_zero_beyond_counterexample :
    ZeroBeyond (bignum_set_int (bignum_init 5) 12345) ∧
    (bignum_set_int (bignum_set_int (bignum_init 5) 12345) 12).sig_digs = 2 ∧
    (bignum_set_int (bignum_set_int (bignum_init 5) 12345) 12).digits.getD 2 0 = 3 ∧
    ¬ ZeroBeyond (bignum_set_int (bignum_set_int (bignum_init 5) 12345) 12) := by
  refine ⟨?_, by decide, by decide, ?_⟩
  · intro i hi
    have hi5 : 5 ≤ i := hi
    have hd : (bignum_set_int (bignum_init 5) 12345).digits = [1, 2, 3, 4, 5] := by
      decide
    rw [hd]
    exact List.getD_eq_default _ _ (by simpa using hi5)
  · intro h
    exact absurd (h 2 (by decide)) (by decide)

/-- Claim C10 (amended): `bignum_reset` zeroes exactly the previously
used digit cells (cells below the old `sig_digs` become zero, every
other cell is untouched), and each arithmetic operation — `add`,
`add_int`, `mult`, `mult_int`, `divide`, `divide_int`, `int_divide` —
preserves the zeros-beyond-`sig_digs` invariant while requiring it only
of the result operand, because each begins by resetting the result and
then re-derives the trailing zeros it strips from `sig_digs`.  `set` and
`set_int`, which do not reset, maintain the invariant only on an
all-zero destination (the way the program always calls them); the
counterexample shows they break it otherwise. -/
theorem c10_zero_beyond_amended :
    (∀ b : Bignum, ∀ i, i < b.sig_digs → (bignum_reset b).digits.getD i 0 = 0) ∧
    (∀ b : Bignum, ∀ i, b.sig_digs ≤ i →
      (bignum_reset b).digits.getD i 0 = b.digits.getD i 0) ∧
    (∀ newnum src : Bignum, (∀ i, newnum.digits.getD i 0 = 0) →
      ZeroBeyond (bignum_set newnum src)) ∧
    (∀ numval : Bignum, ∀ n : Int, (∀ i, numval.digits.getD i 0 = 0) →
      ZeroBeyond (bignum_set_int numval n)) ∧
    (∀ r a b : Bignum, ZeroBeyond r → ZeroBeyond (bignum_add r a b)) ∧
    (∀ r a : Bignum, ∀ n : Int, ZeroBeyond r → ZeroBeyond (bignum_add_int r a n)) ∧
    (∀ r a b : Bignum, ZeroBeyond r → ZeroBeyond (bignum_mult r a b)) ∧
    (∀ r a : Bignum, ∀ n : Int, ZeroBeyond r → ZeroBeyond (bignum_mult_int r a n)) ∧
    (∀ r a b out : Bignum, ZeroBeyond r → bignum_divide r a b = some out →
      ZeroBeyond out) ∧
    (∀ r a : Bignum, ∀ n : Int, ∀ out : Bignum, ZeroBeyond r →
      bignum_divide_int r a n = some out → ZeroBeyond out) ∧
    (∀ r : Bignum, ∀ n : Int, ∀ b out : Bignum, ZeroBeyond r →
      bignum_int_divide r n b = some out → ZeroBeyond out) := by
  refine ⟨?_, ?_, bignum_set_zero_dst, bignum_set_int_zero_dst,
    bignum_add_ZeroBeyond, bignum_add_int_ZeroBeyond, bignum_mult_ZeroBeyond,
    bignum_mult_int_ZeroBeyond, bignum_divide_ZeroBeyond,
    bignum_divide_int_ZeroBeyond, bignum_int_divide_ZeroBeyond⟩
  · intro b i hi
    unfold bignum_reset
    by_cases hs : 0 < b.sig_digs
    · rw [if_pos hs]
      show (zeroPrefix b.sig_digs b.digits).getD i 0 = 0
      rw [zeroPrefix_getD]
      by_cases hl : i < b.digits.length
      · rw [if_pos ⟨hi, hl⟩]
      · rw [if_neg (by omega)]
        exact List.getD_eq_default _ _ (by omega)
    · omega
  · intro b i hi
    unfold bignum_reset
    by_cases hs : 0 < b.sig_digs
    · rw [if_pos hs]
      show (zeroPrefix b.sig_digs b.digits).getD i 0 = b.digits.getD i 0
      rw [zeroPrefix_getD, if_neg (by omega)]
    · rw [if_neg hs]

theorem c10_zero_beyond_amended_witness :
    ZeroBeyond (bignum_set_int (bignum_init 5) 12) ∧
    ZeroBeyond (bignum_add (bignum_init 5) (bignum_set_int (bignum_init 5) 99)
      (bignum_set_int (bignum_init 5) 2)) :=
  ⟨c10_zero_beyond_amended.2.2.2.1 (bignum_init 5) 12
      (fun i => by
        show (List.replicate 5 0).getD i 0 = 0
        rw [getD_replicate]
        simp),
    c10_zero_beyond_amended.2.2.2.2.1 (bignum_init 5) _ _
      (fun i _ => by
        show (List.replicate 5 0).getD i 0 = 0
        rw [getD_replicate]
        simp)⟩

/-- Unfolding equation for one step of the addition loop, with the
intermediate let-bound quantities written out. -/
theorem addLoop_succ_eq (big : List Nat) (k : Nat) (f : List Nat) (c : Nat)
    (tz : Bool) (zc : Nat) :
    addLoop big (k + 1) f c tz zc =
      addLoop big k
        (f.set k (if 10 ≤ f.getD k 0 + big.getD k 0 + c
          then f.getD k 0 + big.getD k 0 + c - 10 else f.getD k 0 + big.getD k 0 + c))
        (if 10 ≤ f.getD k 0 + big.getD k 0 + c then 1 else 0)
        (tz && ((if 10 ≤ f.getD k 0 + big.getD k 0 + c
          then f.getD k 0 + big.getD k 0 + c - 10 else f.getD k 0 + big.getD k 0 + c) == 0))
        (if tz && ((if 10 ≤ f.getD k 0 + big.getD k 0 + c
          then f.getD k 0 + big.getD k 0 + c - 10
          else f.getD k 0 + big.getD k 0 + c) == 0) then zc + 1 else zc) := rfl

/-- Congruence for the addition loop: two runs over stores of equal
length whose per-cell sums (larger operand plus partial sum) agree on the
processed range and whose stores agree beyond it produce identical
results.  This is the heart of commutativity: swapping the operands
swaps which digits sit in `big` and which were copied into the store,
but the cell-wise sums are unchanged. -/
theorem addLoop_congr (big1 big2 : List Nat) :
    ∀ (k : Nat) (f1 f2 : List Nat) (c : Nat) (tz : Bool) (zc : Nat),
      f1.length = f2.length →
      (∀ j, j < k → big1.getD j 0 + f1.getD j 0 = big2.getD j 0 + f2.getD j 0) →
      (∀ j, k ≤ j → f1.getD j 0 = f2.getD j 0) →
      addLoop big1 k f1 c tz zc = addLoop big2 k f2 c tz zc := by
  intro k
  induction k with
  | zero =>
    intro f1 f2 c tz zc hl _ htail
    have hf : f1 = f2 := list_ext_getD 0 hl (fun i _ => htail i (Nat.zero_le i))
    rw [hf]
    rfl
  | succ k ih =>
    intro f1 f2 c tz zc hl hsum htail
    rw [addLoop_succ_eq big1, addLoop_succ_eq big2]
    have hv : f1.getD k 0 + big1.getD k 0 + c = f2.getD k 0 + big2.getD k 0 + c := by
      have h := hsum k (Nat.lt_succ_self k)
      omega
    rw [hv]
    apply ih
    · rw [List.length_set, List.length_set, hl]
    · intro j hj
      rw [getD_set, getD_set,
        if_neg (show ¬(j = k ∧ k < f1.length) from by omega),
        if_neg (show ¬(j = k ∧ k < f2.length) from by omega)]
      exact hsum j (by omega)
    · intro j hj
      rw [getD_set, getD_set]
      by_cases hjk : j = k
      · by_cases hkl : k < f1.length
        · rw [if_pos (show j = k ∧ k < f1.length from ⟨hjk, hkl⟩),
            if_pos (show j = k ∧ k < f2.length from ⟨hjk, by omega⟩)]
        · rw [if_neg (show ¬(j = k ∧ k < f1.length) from by omega),
            if_neg (show ¬(j = k ∧ k < f2.length) from by omega),
            List.getD_eq_default _ _ (show f1.length ≤ j from by omega),
            List.getD_eq_default _ _ (show f2.length ≤ j from by omega)]
      · rw [if_neg (show ¬(j = k ∧ k < f1.length) from by omega),
          if_neg (show ¬(j = k ∧ k < f2.length) from by omega)]
        exact htail j (by omega)

/-- Full cell-wise characterization of the copy loop of `bignum_add`:
starting from the top cell `j0` and writing `n ≤ j0 + 1` cells downward,
cell `j` holds the shifted smaller-operand digit inside the written
window and the original destination value outside it. -/
theorem addCopyLoop_getD (smalld : List Nat) (d : Nat) :
    ∀ (n j0 : Nat) (dst : List Nat) (j : Nat), n ≤ j0 + 1 →
      (addCopyLoop smalld d n j0 dst).getD j 0 =
        if j0 + 1 - n ≤ j ∧ j ≤ j0 ∧ d ≤ j ∧ j < dst.length
        then smalld.getD (j - d) 0 else dst.getD j 0 := by
  intro n
  induction n with
  | zero =>
    intro j0 dst j _
    rw [if_neg (show ¬(j0 + 1 - 0 ≤ j ∧ j ≤ j0 ∧ d ≤ j ∧ j < dst.length)
      from by omega)]
    rfl
  | succ n ih =>
    intro j0 dst j hn
    show (addCopyLoop smalld d n (j0 - 1)
      (if d ≤ j0 then dst.set j0 (smalld.getD (j0 - d) 0) else dst)).getD j 0 = _
    by_cases hd : d ≤ j0
    · rw [if_pos hd, ih (j0 - 1) (dst.set j0 (smalld.getD (j0 - d) 0)) j (by omega),
        List.length_set, getD_set]
      by_cases hj : j = j0
      · rw [if_neg (show ¬((j0 - 1) + 1 - n ≤ j ∧ j ≤ j0 - 1 ∧ d ≤ j ∧ j < dst.length)
          from by omega)]
        by_cases hlen : j0 < dst.length
        · rw [if_pos (show j = j0 ∧ j0 < dst.length from ⟨hj, hlen⟩),
            if_pos (show j0 + 1 - (n + 1) ≤ j ∧ j ≤ j0 ∧ d ≤ j ∧ j < dst.length
              from by omega)]
          rw [hj]
        · rw [if_neg (show ¬(j = j0 ∧ j0 < dst.length) from by omega),
            if_neg (show ¬(j0 + 1 - (n + 1) ≤ j ∧ j ≤ j0 ∧ d ≤ j ∧ j < dst.length)
              from by omega)]
      · rw [if_neg (show ¬(j = j0 ∧ j0 < dst.length) from by omega)]
        by_cases hc : j0 + 1 - (n + 1) ≤ j ∧ j ≤ j0 ∧ d ≤ j ∧ j < dst.length
        · rw [if_pos (show (j0 - 1) + 1 - n ≤ j ∧ j ≤ j0 - 1 ∧ d ≤ j ∧ j < dst.length
            from by omega), if_pos hc]
        · rw [if_neg (show ¬((j0 - 1) + 1 - n ≤ j ∧ j ≤ j0 - 1 ∧ d ≤ j ∧ j < dst.length)
            from by omega), if_neg hc]
    · rw [if_neg hd, ih (j0 - 1) dst j (by omega),
        if_neg (show ¬((j0 - 1) + 1 - n ≤ j ∧ j ≤ j0 - 1 ∧ d ≤ j ∧ j < dst.length)
          from by omega),
        if_neg (show ¬(j0 + 1 - (n + 1) ≤ j ∧ j ≤ j0 ∧ d ≤ j ∧ j < dst.length)
          from by omega)]

/-- Commutativity of the main addition path in the equal-power case: the
copy loop lays the other operand into the (all-zero) result store, so
the cell-wise sums of the digit loop are symmetric in the operands. -/
theorem bignum_add_core_comm (r0 a b : Bignum)
    (hpw : a.power = b.power)
    (hr0 : ∀ i, r0.digits.getD i 0 = 0)
    (ha : ZeroBeyond a) (hb : ZeroBeyond b)
    (hap : a.sig_digs ≤ r0.precision) (hbp : b.sig_digs ≤ r0.precision)
    (hlen : r0.precision ≤ r0.digits.length) :
    bignum_add_core r0 a b = bignum_add_core r0 b a := by
  have hd0 : (a.power - b.power).toNat = 0 := by omega
  have hd0s : (b.power - a.power).toNat = 0 := by omega
  unfold bignum_add_core
  dsimp only
  simp only [hd0, hd0s, Nat.add_zero, Nat.sub_zero]
  have hna : ¬ r0.precision < a.sig_digs := by omega
  have hnb : ¬ r0.precision < b.sig_digs := by omega
  simp only [if_neg hna, if_neg hnb]
  set S := if b.sig_digs < a.sig_digs then a.sig_digs else b.sig_digs with hS
  set S2 := if a.sig_digs < b.sig_digs then b.sig_digs else a.sig_digs with hS2
  have hSS : S2 = S := by
    rw [hS, hS2]
    split <;> split <;> omega
  set F1 := addCopyLoop b.digits 0 b.sig_digs (b.sig_digs - 1) r0.digits with hF1def
  set F2 := addCopyLoop a.digits 0 a.sig_digs (a.sig_digs - 1) r0.digits with hF2def
  rw [hSS, hpw]
  have hSa : a.sig_digs ≤ S := by
    rw [hS]
    split <;> omega
  have hSb : b.sig_digs ≤ S := by
    rw [hS]
    split <;> omega
  have hSp : S ≤ r0.precision := by
    rw [hS]
    split <;> omega
  have hF1c : ∀ j, F1.getD j 0 =
      if j < b.sig_digs ∧ j < r0.digits.length then b.digits.getD j 0 else 0 := by
    intro j
    rw [hF1def, addCopyLoop_getD b.digits 0 b.sig_digs (b.sig_digs - 1) r0.digits j
      (by omega)]
    by_cases hc : j < b.sig_digs ∧ j < r0.digits.length
    · rw [if_pos (show (b.sig_digs - 1) + 1 - b.sig_digs ≤ j ∧ j ≤ b.sig_digs - 1 ∧
          0 ≤ j ∧ j < r0.digits.length from by omega), if_pos hc, Nat.sub_zero]
    · rw [if_neg (show ¬((b.sig_digs - 1) + 1 - b.sig_digs ≤ j ∧ j ≤ b.sig_digs - 1 ∧
          0 ≤ j ∧ j < r0.digits.length) from by omega), if_neg hc]
      exact hr0 j
  have hF2c : ∀ j, F2.getD j 0 =
      if j < a.sig_digs ∧ j < r0.digits.length then a.digits.getD j 0 else 0 := by
    intro j
    rw [hF2def, addCopyLoop_getD a.digits 0 a.sig_digs (a.sig_digs - 1) r0.digits j
      (by omega)]
    by_cases hc : j < a.sig_digs ∧ j < r0.digits.length
    · rw [if_pos (show (a.sig_digs - 1) + 1 - a.sig_digs ≤ j ∧ j ≤ a.sig_digs - 1 ∧
          0 ≤ j ∧ j < r0.digits.length from by omega), if_pos hc, Nat.sub_zero]
    · rw [if_neg (show ¬((a.sig_digs - 1) + 1 - a.sig_digs ≤ j ∧ j ≤ a.sig_digs - 1 ∧
          0 ≤ j ∧ j < r0.digits.length) from by omega), if_neg hc]
      exact hr0 j
  have hloop : addLoop a.digits S F1 0 true 0 = addLoop b.digits S F2 0 true 0 := by
    apply addLoop_congr
    · rw [hF1def, hF2def, addCopyLoop_length, addCopyLoop_length]
    · intro j hj
      rw [hF1c j, hF2c j]
      have hjlen : j < r0.digits.length := by omega
      by_cases h1 : j < b.sig_digs
      · rw [if_pos (show j < b.sig_digs ∧ j < r0.digits.length from ⟨h1, hjlen⟩)]
        by_cases h2 : j < a.sig_digs
        · rw [if_pos (show j < a.sig_digs ∧ j < r0.digits.length from ⟨h2, hjlen⟩)]
          omega
        · rw [if_neg (show ¬(j < a.sig_digs ∧ j < r0.digits.length) from by omega)]
          have haj : a.digits.getD j 0 = 0 := ha j (by omega)
          omega
      · rw [if_neg (show ¬(j < b.sig_digs ∧ j < r0.digits.length) from by omega)]
        have hbj : b.digits.getD j 0 = 0 := hb j (by omega)
        by_cases h2 : j < a.sig_digs
        · rw [if_pos (show j < a.sig_digs ∧ j < r0.digits.length from ⟨h2, hjlen⟩)]
          omega
        · rw [if_neg (show ¬(j < a.sig_digs ∧ j < r0.digits.length) from by omega)]
          have haj : a.digits.getD j 0 = 0 := ha j (by omega)
          omega
    · intro j hj
      rw [hF1c j, hF2c j,
        if_neg (show ¬(j < b.sig_digs ∧ j < r0.digits.length) from by omega),
        if_neg (show ¬(j < a.sig_digs ∧ j < r0.digits.length) from by omega)]
  rw [hloop]

/-- Claim C6: for bignums `a` and `b` of the same precision as the
result (well-formed: zeros beyond `sig_digs`, `sig_digs` within the
precision, and a digit buffer at least `precision` cells long),
`add(r, a, b)` and `add(r, b, a)` produce equal bignums — the same
power, `sig_digs`, and stored digits. -/
theorem c6_add_comm (r a b : Bignum)
    (hap2 : a.precision = r.precision) (hbp2 : b.precision = r.precision)
    (hr : ZeroBeyond r) (ha : ZeroBeyond a) (hb : ZeroBeyond b)
    (has : a.sig_digs ≤ r.precision) (hbs : b.sig_digs ≤ r.precision)
    (hrlen : r.precision ≤ r.digits.length) :
    bignum_add r a b = bignum_add r b a := by
  have hr0 : ∀ i, (bignum_reset r).digits.getD i 0 = 0 :=
    bignum_reset_digits_zero r hr
  have hp : (bignum_reset r).precision = r.precision := bignum_reset_precision r
  have hl : (bignum_reset r).digits.length = r.digits.length :=
    bignum_reset_digits_length r
  unfold bignum_add
  dsimp only
  by_cases za : a.sig_digs = 0 <;> by_cases zb : b.sig_digs = 0
  · simp only [if_neg (by omega : ¬(a.sig_digs = 0 ∧ 0 < b.sig_digs)),
      if_neg (by omega : ¬(b.sig_digs = 0 ∧ 0 < a.sig_digs)),
      if_pos (show a.sig_digs = 0 ∧ b.sig_digs = 0 from ⟨za, zb⟩),
      if_pos (show b.sig_digs = 0 ∧ a.sig_digs = 0 from ⟨zb, za⟩)]
  · simp only [if_pos (show a.sig_digs = 0 ∧ 0 < b.sig_digs from ⟨za, by omega⟩),
      if_neg (by omega : ¬(b.sig_digs = 0 ∧ 0 < a.sig_digs))]
  · simp only [if_pos (show b.sig_digs = 0 ∧ 0 < a.sig_digs from ⟨zb, by omega⟩),
      if_neg (by omega : ¬(a.sig_digs = 0 ∧ 0 < b.sig_digs))]
  · simp only [if_neg (by omega : ¬(a.sig_digs = 0 ∧ 0 < b.sig_digs)),
      if_neg (by omega : ¬(b.sig_digs = 0 ∧ 0 < a.sig_digs)),
      if_neg (by omega : ¬(a.sig_digs = 0 ∧ b.sig_digs = 0)),
      if_neg (by omega : ¬(b.sig_digs = 0 ∧ a.sig_digs = 0))]
    rcases lt_trichotomy a.power b.power with hlt | heq | hgt
    · by_cases hov : ((bignum_reset r).precision : Int) < b.power - a.power
      · simp only [if_neg (by omega : ¬(0 < a.power - b.power ∧
            ((bignum_reset r).precision : Int) < a.power - b.power)),
          if_pos (show 0 < b.power - a.power ∧
            ((bignum_reset r).precision : Int) < b.power - a.power from ⟨by omega, hov⟩)]
      · simp only [if_neg (by omega : ¬(0 < a.power - b.power ∧
            ((bignum_reset r).precision : Int) < a.power - b.power)),
          if_neg (show ¬(0 < b.power - a.power ∧
            ((bignum_reset r).precision : Int) < b.power - a.power) from fun h => hov h.2),
          if_neg (by omega : ¬(0 ≤ a.power - b.power)),
          if_pos (by omega : (0 ≤ b.power - a.power))]
    · simp only [if_neg (by omega : ¬(0 < a.power - b.power ∧
          ((bignum_reset r).precision : Int) < a.power - b.power)),
        if_neg (by omega : ¬(0 < b.power - a.power ∧
          ((bignum_reset r).precision : Int) < b.power - a.power)),
        if_pos (by omega : (0 ≤ a.power - b.power)),
        if_pos (by omega : (0 ≤ b.power - a.power))]
      exact bignum_add_core_comm (bignum_reset r) a b heq hr0 ha hb
        (by omega) (by omega) (by omega)
    · by_cases hov : ((bignum_reset r).precision : Int) < a.power - b.power
      · simp only [if_pos (show 0 < a.power - b.power ∧
            ((bignum_reset r).precision : Int) < a.power - b.power from ⟨by omega, hov⟩),
          if_neg (by omega : ¬(0 < b.power - a.power ∧
            ((bignum_reset r).precision : Int) < b.power - a.power))]
      · simp only [if_neg (show ¬(0 < a.power - b.power ∧
            ((bignum_reset r).precision : Int) < a.power - b.power) from fun h => hov h.2),
          if_neg (by omega : ¬(0 < b.power - a.power ∧
            ((bignum_reset r).precision : Int) < b.power - a.power)),
          if_pos (by omega : (0 ≤ a.power - b.power)),
          if_neg (by omega : ¬(0 ≤ b.power - a.power))]

theorem c6_add_comm_witness :
    bignum_add (bignum_init 5) (bignum_set_int (bignum_init 5) 12345)
        (bignum_set_int (bignum_init 5) 98765) =
      bignum_add (bignum_init 5) (bignum_set_int (bignum_init 5) 98765)
        (bignum_set_int (bignum_init 5) 12345) :=
  c6_add_comm _ _ _ (by decide) (by decide)
    (fun i _ => by
      show (List.replicate 5 0).getD i 0 = 0
      rw [getD_replicate]
      simp)
    (fun i hi => by
      have hi5 : 5 ≤ i := hi
      have hd : (bignum_set_int (bignum_init 5) 12345).digits = [1, 2, 3, 4, 5] := by
        decide
      rw [hd]
      exact List.getD_eq_default _ _ (by simpa using hi5))
    (fun i hi => by
      have hi5 : 5 ≤ i := hi
      have hd : (bignum_set_int (bignum_init 5) 98765).digits = [9, 8, 7, 6, 5] := by
        decide
      rw [hd]
      exact List.getD_eq_default _ _ (by simpa using hi5))
    (by decide) (by decide) (by decide)

end MakePi
